import Mathlib


/-!
Verification development for the macro-expansion and validation core of
`llama_swap_config_autogen`.

Strings are modelled as `List Char` (`Str`); Python `dict[str, str]` tables as
association lists `List (Str × Str)` with `List.lookup` (keys are unique in all
uses of interest, so first-match lookup models Python dict lookup); Python sets
of strings as duplicate-free lists up to permutation.  Raised exceptions are
reified as `Except` values; the recursion of `expand_macro` is driven by a fuel
parameter, with `none` marking fuel exhaustion (proved unreachable at the
standard fuel bound).
-/

abbrev Str := List Char

/-- The character `{`. -/
def lbrace : Char := Char.ofNat 123

/-- The character `}`. -/
def rbrace : Char := Char.ofNat 125

/-- Whitespace as recognised by Python's `str.split()` with no arguments
(space, tab, newline, carriage return, vertical tab, form feed). -/
def pyIsSpace (c : Char) : Bool :=
  c = ' ' || c = '\t' || c = '\n' || c = '\r' || c = Char.ofNat 11 || c = Char.ofNat 12

/-- Python `str.split()` with no arguments: split on runs of whitespace,
discarding empty fields. -/
def pySplit : Str → List Str
  | [] => []
  | c :: rest =>
    if pyIsSpace c then pySplit rest
    else (c :: rest.takeWhile (fun d => !pyIsSpace d)) ::
      pySplit (rest.dropWhile (fun d => !pyIsSpace d))
termination_by s => s.length
decreasing_by
  · simp only [List.length_cons]; omega
  · have := (List.dropWhile_sublist (l := rest) (fun d => !pyIsSpace d)).length_le
    simp only [List.length_cons]; omega

/-- Python `" ".join(tokens)`. -/
def joinSpace : List Str → Str
  | [] => []
  | [t] => t
  | t :: u :: rest => t ++ ' ' :: joinSpace (u :: rest)

/-! ## Parameter deduplication (`generator.deduplicate_parameters`)

The Python function tokenizes on whitespace, scans left to right recording for
every flag token (token starting with `-`) its occurrences `(index, value
indices)` in a dict (later occurrences overwrite earlier ones), records
non-flag tokens seen outside a value run as standalone indices, and finally
rebuilds the string from the set of surviving indices in ascending order.

`scanAux` returns the full ordered list of flag occurrences together with the
standalone indices; the final Python dict state is recovered by `lastOcc`
(last write wins), and the surviving-index set by `includedIdx`.  Since every
recorded index is below the token count, listing the sorted index set equals
filtering `List.range`. -/

/-- Python `token.startswith("-")`. -/
def isFlag (t : Str) : Bool :=
  match t with
  | c :: _ => c = '-'
  | [] => false

/-- Negation of `isFlag`, used as the value-run predicate. -/
def notFlag (t : Str) : Bool := !isFlag t

/-- The scanning loop of `deduplicate_parameters`: from a token list and the
index of its first token, produce the ordered list of flag occurrences
`(flag, flag index, value indices)` and the standalone (non-flag, outside any
value run) indices. -/
def scanAux : List Str → Nat → (List (Str × Nat × List Nat)) × List Nat
  | [], _ => ([], [])
  | t :: rest, i =>
    if isFlag t then
      let vals := rest.takeWhile notFlag
      let res := scanAux (rest.dropWhile notFlag) (i + 1 + vals.length)
      ((t, i, List.range' (i + 1) vals.length) :: res.1, res.2)
    else
      let res := scanAux rest (i + 1)
      (res.1, i :: res.2)
termination_by ts _ => ts.length
decreasing_by
  · have := (List.dropWhile_sublist (l := rest) notFlag).length_le
    simp only [List.length_cons]; omega
  · simp only [List.length_cons]; omega

/-- Final state of the Python dict `param_occurrences` at key `f`: the last
recorded occurrence of flag `f`. -/
def lastOcc (ps : List (Str × Nat × List Nat)) (f : Str) : Option (Nat × List Nat) :=
  match ps.reverse.find? (fun e => e.1 == f) with
  | some e => some e.2
  | none => none

/-- Membership of index `n` in `indices_to_include`: a standalone index, or an
index belonging to the final (rightmost) recorded occurrence of some flag. -/
def includedIdx (ps : List (Str × Nat × List Nat)) (ss : List Nat) (n : Nat) : Bool :=
  ss.contains n ||
    ps.any (fun e =>
      match lastOcc ps e.1 with
      | some pv => n == pv.1 || pv.2.contains n
      | none => false)

/-- Token-level core of `deduplicate_parameters`: surviving tokens in
ascending index order.  (All recorded indices are below the token count, so
filtering `List.range` lists the sorted index set.) -/
def dedupTokens (tokens : List Str) : List Str :=
  let res := scanAux tokens 0
  ((List.range tokens.length).filter (fun n => includedIdx res.1 res.2 n)).map
    (fun n => tokens.getD n [])

/-- `generator.deduplicate_parameters`: tokenize, deduplicate flags keeping the
rightmost occurrence (with its value tokens), rejoin with single spaces. -/
def deduplicate_parameters (expanded_value : Str) : Str :=
  joinSpace (dedupTokens (pySplit expanded_value))

/-! ### Specification-level reformulation

`toBlocks` decomposes the part of the token list from the first flag onwards
into blocks `(flag, following non-flag value tokens)`; `keepLastBlocks` keeps,
for every flag, only its rightmost block.  `dedupSpecTokens` states the
intended behaviour: leading non-flag tokens survive, and of each flag only the
rightmost occurrence together with its contiguous value tokens survives, in
positional order. -/

/-- Decompose a token list into `(flag, values)` blocks (the head of each
block is a flag whenever the input starts with a flag). -/
def toBlocks : List Str → List (Str × List Str)
  | [] => []
  | t :: rest => (t, rest.takeWhile notFlag) :: toBlocks (rest.dropWhile notFlag)
termination_by ts => ts.length
decreasing_by
  have := (List.dropWhile_sublist (l := rest) notFlag).length_le
  simp only [List.length_cons]; omega

/-- Keep only the rightmost block of every flag. -/
def keepLastBlocks : List (Str × List Str) → List (Str × List Str)
  | [] => []
  | b :: bs => if bs.any (fun b2 => b2.1 == b.1) then keepLastBlocks bs else b :: keepLastBlocks bs

/-- Flatten blocks back into a token list. -/
def flatBlocks (bs : List (Str × List Str)) : List Str :=
  bs.flatMap (fun b => b.1 :: b.2)

/-- Specification-level deduplication: keep the leading non-flag tokens and,
for every flag, only its rightmost `(flag, values)` block, in positional
order. -/
def dedupSpecTokens (ts : List Str) : List Str :=
  ts.takeWhile notFlag ++ flatBlocks (keepLastBlocks (toBlocks (ts.dropWhile notFlag)))

/-- Positions of the occurrence entries generated for a block list whose first
token sits at index `i`. -/
def blockEntries : List (Str × List Str) → Nat → List (Str × Nat × List Nat)
  | [], _ => []
  | (f, vs) :: bs, i => (f, i, List.range' (i + 1) vs.length) :: blockEntries bs (i + 1 + vs.length)

/-- Whether the index `n` (assumed `≥ s`) falls into a block that is the
rightmost block of its flag. -/
def keptPos : List (Str × List Str) → Nat → Nat → Bool
  | [], _, _ => false
  | (f, vs) :: bs, s, n =>
    if n < s + 1 + vs.length then !(bs.any (fun b2 => b2.1 == f))
    else keptPos bs (s + 1 + vs.length) n

/-- The flag-occurrence part of `includedIdx`. -/
def incPs (ps : List (Str × Nat × List Nat)) (n : Nat) : Bool :=
  ps.any (fun e =>
    match lastOcc ps e.1 with
    | some pv => n == pv.1 || pv.2.contains n
    | none => false)

/-- A list whose head (if any) is a flag. -/
def headFlag (l : List Str) : Prop :=
  match l with
  | [] => True
  | t :: _ => isFlag t = true

/-! ## Macro expansion (`generator.expand_macro`)

`findMacros` models `re.findall(r"\$\{([^}]+)\}", s)`: left-to-right,
non-overlapping matches of `${`, one or more non-`}` characters, `}`; on a
failed match the scan advances one character past the `$`.  `replaceAll`
models Python `str.replace` (all non-overlapping occurrences, left to right;
the patterns used are always nonempty).  The recursion of `expand_macro` is
fuel-driven; `none` marks fuel exhaustion and is proved unreachable at fuel
`table.length + 1`, since each recursive call adds a table key to the
path-local visited set. -/

/-- The literal text `${name}`. -/
def macroRef (name : Str) : Str :=
  '$' :: lbrace :: (name ++ [rbrace])

/-- `re.findall(r"\$\{([^}]+)\}", s)`: at a `${`, the candidate body is the
maximal run of non-`}` characters; the match succeeds when the body is
nonempty and a closing `}` follows, and scanning resumes after it; otherwise
the scan advances one character past the `$`. -/
def findMacros : Str → List Str
  | [] => []
  | c1 :: rest =>
    match rest with
    | [] => []
    | c2 :: rest2 =>
      if c1 = '$' ∧ c2 = lbrace then
        if (rest2.takeWhile (fun d => !(d = rbrace))).isEmpty
            || (rest2.dropWhile (fun d => !(d = rbrace))).isEmpty then
          findMacros (c2 :: rest2)
        else (rest2.takeWhile (fun d => !(d = rbrace))) ::
          findMacros (rest2.dropWhile (fun d => !(d = rbrace))).tail
      else findMacros (c2 :: rest2)
termination_by s => s.length
decreasing_by
  · simp only [List.length_cons]; omega
  · have h1 : (rest2.dropWhile (fun d => !(d = rbrace))).length ≤ rest2.length :=
      (List.dropWhile_sublist (fun d => !(d = rbrace))).length_le
    have h2 : (rest2.dropWhile (fun d => !(d = rbrace))).tail.length
        ≤ (rest2.dropWhile (fun d => !(d = rbrace))).length := by
      cases rest2.dropWhile (fun d => !(d = rbrace)) <;> simp
    simp only [List.length_cons]; omega
  · simp only [List.length_cons]; omega

/-- Python `s.replace(pat, rep)` for nonempty `pat` (all the patterns passed
by `expand_macro` have the form `${name}` and are nonempty). -/
def replaceAll : Str → Str → Str → Str
  | [], _, _ => []
  | c :: rest, pat, rep =>
    if pat ≠ [] ∧ pat.isPrefixOf (c :: rest) then
      rep ++ replaceAll ((c :: rest).drop pat.length) pat rep
    else c :: replaceAll rest pat rep
termination_by s _ _ => s.length
decreasing_by
  · rename_i h
    have : pat.length ≠ 0 := by
      intro h0
      exact h.1 (List.length_eq_zero.mp h0)
    simp only [List.length_cons, List.length_drop]
    omega
  · simp only [List.length_cons]; omega

/-- Python dict lookup on the macro table. -/
def lookupStr (table : List (Str × Str)) (name : Str) : Option Str :=
  List.lookup name table

mutual
/-- `generator.expand_macro` with explicit fuel.  Returns `none` on fuel
exhaustion, `some (Except.error name)` when the Python code raises
`ValueError("Circular macro reference detected: {name}")`, and
`some (Except.ok result)` otherwise. -/
def expandMacroFuel : Nat → List (Str × Str) → Str → List Str → Option (Except Str Str)
  | 0, _, _, _ => none
  | Nat.succ fuel, table, name, visited =>
    if visited.contains name then some (Except.error name)
    else
      match lookupStr table name with
      | none => some (Except.ok (macroRef name))
      | some value =>
        match expandNested fuel table (name :: visited) (findMacros value) value with
        | none => none
        | some (Except.error e) => some (Except.error e)
        | some (Except.ok ev) => some (Except.ok (deduplicate_parameters ev))
termination_by fuel _ _ _ => (fuel, 0)

/-- The substitution loop of `expand_macro`: for each nested reference found
in the raw value (in order), if it is a defined macro, expand it with a copy
of the visited set and replace every occurrence of its `${...}` token. -/
def expandNested : Nat → List (Str × Str) → List Str → List Str → Str → Option (Except Str Str)
  | _, _, _, [], acc => some (Except.ok acc)
  | fuel, table, visited, m :: ms, acc =>
    if (lookupStr table m).isSome then
      match expandMacroFuel fuel table m visited with
      | none => none
      | some (Except.error e) => some (Except.error e)
      | some (Except.ok mv) => expandNested fuel table visited ms (replaceAll acc (macroRef m) mv)
    else expandNested fuel table visited ms acc
termination_by fuel _ _ ms _ => (fuel, ms.length + 1)
end

/-- Top-level `expand_macro(name, table)`: fresh visited set, with fuel
sufficient for the deepest possible recursion (one table key per level). -/
def expandMacroTop (table : List (Str × Str)) (name : Str) : Option (Except Str Str) :=
  expandMacroFuel (table.length + 1) table name []

/-- The set of table keys not yet on the visited path (the recursion
measure). -/
def keysLeft (table : List (Str × Str)) (visited : List Str) : Nat :=
  ((table.map Prod.fst).toFinset \ visited.toFinset).card

/-- The cycle predicate of the Expander: `Raises table name visited` holds
exactly when some resolution path starting at `name` (following `${ref}`
tokens of raw table values through defined macros) revisits a name already on
the path (the initial segment being `visited`). -/
inductive Raises (table : List (Str × Str)) : Str → List Str → Prop where
  | base {name : Str} {visited : List Str} :
      name ∈ visited → Raises table name visited
  | step {name : Str} {visited : List Str} {v m : Str} :
      name ∉ visited → lookupStr table name = some v →
      m ∈ findMacros v → (lookupStr table m).isSome →
      Raises table m (name :: visited) →
      Raises table name visited

/-! ## Usage extraction (`generator.extract_used_macros_from_commands`)

The Python function seeds a `set` with every `${name}` reference found in the
command strings, then iterates the set, expanding each name present in the
table (catching circular-reference errors and falling back to the raw value,
with a printed warning).  CPython set iteration order is unspecified
(hash-dependent), so the model takes the iteration order as a parameter: any
duplicate-free enumeration of the discovered names (`IsSetOrder`). -/

/-- First-discovery deduplication of a scan list (insertion order of a
Python set's *contents*, used to state ordering claims). -/
def dedupFirstAux (seen : List Str) : List Str → List Str
  | [] => []
  | x :: xs => if seen.contains x then dedupFirstAux seen xs
               else x :: dedupFirstAux (x :: seen) xs

/-- Distinct names in first-discovery order. -/
def dedupFirst (l : List Str) : List Str := dedupFirstAux [] l

/-- All `${name}` references found by scanning the command strings in order. -/
def discoveredRefs (commands : List Str) : List Str :=
  commands.flatMap findMacros

/-- `order` is a possible iteration order of the Python set seeded with the
discovered references: a duplicate-free enumeration of exactly those names. -/
def IsSetOrder (order : List Str) (commands : List Str) : Prop :=
  order.Perm (dedupFirst (discoveredRefs commands))

/-- Per-name resolution of the extractor: expand; on a circular-reference
error (the only exception `expand_macro` raises) fall back to the raw table
value.  Fuel exhaustion cannot occur (`expandMacroTop_ne_none`); its branch is
mapped to the raw value as well. -/
def resolveUsed (table : List (Str × Str)) (m : Str) : Str :=
  match expandMacroTop table m with
  | some (Except.ok v) => v
  | _ => (lookupStr table m).getD []

/-- Whether resolving `m` hits the circular-reference handler (the warning
path). -/
def resolveWarns (table : List (Str × Str)) (m : Str) : Bool :=
  match expandMacroTop table m with
  | some (Except.error _) => true
  | _ => false

/-- `extract_used_macros_from_commands`, parameterized by the set iteration
order: names absent from the table are skipped; each processed name maps to
its expansion, or to its raw value when expansion raises. -/
def extractUsedWith (order : List Str) (table : List (Str × Str)) : List (Str × Str) :=
  match order with
  | [] => []
  | m :: ms =>
    if (lookupStr table m).isSome then (m, resolveUsed table m) :: extractUsedWith ms table
    else extractUsedWith ms table

/-- The warnings printed during extraction (one per cyclic processed name). -/
def extractWarnings (order : List Str) (table : List (Str × Str)) : List Str :=
  order.filter (fun m => (lookupStr table m).isSome && resolveWarns table m)

/-! ## Validation engine (`validation_models.py`, `validator.py`)

The document model (`PyDoc`) reflects the typed content of a parsed YAML
mapping: optional scalar fields carry their pydantic defaults; `Option`
models YAML null/absent (both take the default where a field validator
coerces `None`, which is the behaviour relevant to every check below).
Fields without validators and without any role in the checks
(`logRequests`, `unlisted`, `useModelName`, `name`, `description`,
`profiles`, `filters`, the group booleans) are omitted: no modelled claim
depends on them.  A raised `ValueError` inside a validator is reified as
`Except.error`; pydantic turns it into a single-entry error report.  The
hooks `preload` list models `hooks.on_startup.preload` (a missing/null hook
level behaves exactly like an empty list in the code). -/

/-- Structured stand-ins for the `ValueError` message strings raised by the
validators (the message text itself is presentation). -/
inductive VErr where
  | topEmpty : VErr
  | topNotMapping : VErr
  | cmdEmpty (mid : Str) : VErr
  | badEnv (mid ev : Str) : VErr
  | badProxy (mid : Str) : VErr
  | negTtl (mid : Str) : VErr
  | negConcurrency (mid : Str) : VErr
  | groupEmpty (gid : Str) : VErr
  | groupDupMembers (gid : Str) : VErr
  | badLogLevel (v : Str) : VErr
  | noModels : VErr
  | macroNameTooLong (n : Str) : VErr
  | macroNameBad (n : Str) : VErr
  | macroReserved (n : Str) : VErr
  | macroValueTooLong (n : Str) : VErr
  | badHealthCheckTimeout : VErr
  | badMetricsMax : VErr
  | badStartPort : VErr
  | dupAlias (a m1 m2 : Str) : VErr
  | undefinedMembers (refs : List (Str × Str)) : VErr
  | multiGroup (m : Str) : VErr
  | unknownPreload (m : Str) : VErr
  | nestedMacroLit (mid field : Str) : VErr
  | unknownMacroRef (n mid field : Str) : VErr
  | portMismatch (mid : Str) : VErr
  | circularMacroErr (n : Str) : VErr
deriving DecidableEq

/-- A model entry of the `models` mapping (fields relevant to validation). -/
structure PyModelConfig where
  cmd : Str
  cmdStop : Option Str := none
  proxy : Option Str := none
  aliases : List Str := []
  env : List Str := []
  checkEndpoint : Option Str := none
  ttl : Int := 0
  concurrencyLimit : Int := 0
deriving DecidableEq

/-- A group entry (only `members` carries validation logic). -/
structure PyGroupConfig where
  members : List Str
deriving DecidableEq

/-- The typed content of a candidate configuration document. -/
structure PyDoc where
  healthCheckTimeout : Int := 120
  logLevel : Option Str := none
  metricsMaxInMemory : Int := 1000
  models : List (Str × PyModelConfig)
  groups : List (Str × PyGroupConfig) := []
  macros : List (Str × Str) := []
  startPort : Int := 5800
  preload : List Str := []
deriving DecidableEq

/-- Default `proxy` (`"http://localhost:${PORT}"`). -/
def defaultProxy : Str := "http://localhost:${PORT}".data

/-- Default `checkEndpoint` (`"/health"`). -/
def defaultCheckEndpoint : Str := "/health".data

/-- `${PORT}` as text. -/
def portTok : Str := "${PORT}".data

/-- The literal `"${${"` whose presence rejects a field. -/
def nestedLit : Str := "$\x7b$\x7b".data

/-- Reserved runtime macro names. -/
def reservedNames : List Str := ["PORT".data, "MODEL_ID".data, "PID".data]

/-- Python substring test (`pat in s`). -/
def containsSub (s pat : Str) : Bool :=
  if pat.isPrefixOf s then true
  else
    match s with
    | [] => false
    | _ :: rest => containsSub rest pat

/-- The validated `proxy` value (the field validator maps `None` to the
default and otherwise returns the given string). -/
def vProxy (m : PyModelConfig) : Str :=
  match m.proxy with
  | none => defaultProxy
  | some v => v

/-- `model_config.cmdStop or ""`. -/
def vCmdStop (m : PyModelConfig) : Str := m.cmdStop.getD []

/-- The validated `checkEndpoint` (default applied; an explicit null, which
the code turns into `""`, is not distinguished — neither value contains any
`${` reference, so every check treats them alike). -/
def vCheckEndpoint (m : PyModelConfig) : Str := m.checkEndpoint.getD defaultCheckEndpoint

/-- The `(field name, field value)` list the consistency macro checks walk,
in source order. -/
def consistencyFields (m : PyModelConfig) : List (Str × Str) :=
  [("cmd".data, m.cmd), ("cmdStop".data, vCmdStop m),
   ("proxy".data, vProxy m), ("checkEndpoint".data, vCheckEndpoint m)]

/-- Macro-name charset `[a-zA-Z0-9_-]`, nonempty (`^[a-zA-Z0-9_-]+$`). -/
def macroNameOk (n : Str) : Bool :=
  !n.isEmpty && n.all (fun c => c.isAlphanum || c = '_' || c = '-')

/-- The validator's reference pattern `\$\{([a-zA-Z0-9_-]+)\}` (note: unlike
the generator's expansion pattern, the body charset is restricted). -/
def findMacrosV : Str → List Str
  | [] => []
  | c1 :: rest =>
    match rest with
    | [] => []
    | c2 :: rest2 =>
      if c1 = '$' ∧ c2 = lbrace then
        if (rest2.takeWhile (fun d => d.isAlphanum || d = '_' || d = '-')).isEmpty
            || ((rest2.drop (rest2.takeWhile
                  (fun d => d.isAlphanum || d = '_' || d = '-')).length).head? != some rbrace) then
          findMacrosV (c2 :: rest2)
        else (rest2.takeWhile (fun d => d.isAlphanum || d = '_' || d = '-')) ::
          findMacrosV (rest2.drop
            ((rest2.takeWhile (fun d => d.isAlphanum || d = '_' || d = '-')).length + 1))
      else findMacrosV (c2 :: rest2)
termination_by s => s.length
decreasing_by
  · simp only [List.length_cons]; omega
  · simp only [List.length_cons, List.length_drop]
    omega
  · simp only [List.length_cons]; omega

/-- Alias registration for one model's alias list (first duplicate raises,
naming the previous owner and the current model). -/
def addAliases (mid : Str) : List Str → List (Str × Str) → Except VErr (List (Str × Str))
  | [], acc => Except.ok acc
  | a :: rest, acc =>
    match List.lookup a acc with
    | some owner => Except.error (VErr.dupAlias a owner mid)
    | none => addAliases mid rest (acc ++ [(a, mid)])

/-- The alias-uniqueness pass over all models, building `aliases_to_model`. -/
def buildAliasMap : List (Str × PyModelConfig) → List (Str × Str) → Except VErr (List (Str × Str))
  | [], acc => Except.ok acc
  | (mid, m) :: rest, acc =>
    match addAliases mid m.aliases acc with
    | Except.error e => Except.error e
    | Except.ok acc2 => buildAliasMap rest acc2

/-- The member loop of the group check: undefined members are appended to the
collected list, but a member already seen in any group raises immediately. -/
def checkMembers (gid : Str) (models : List (Str × PyModelConfig)) :
    List Str → List Str → List (Str × Str) → Except VErr (List Str × List (Str × Str))
  | [], seen, undef => Except.ok (seen, undef)
  | mem :: rest, seen, undef =>
    let undef2 := if (List.lookup mem models).isSome then undef else undef ++ [(gid, mem)]
    if seen.contains mem then Except.error (VErr.multiGroup mem)
    else checkMembers gid models rest (seen ++ [mem]) undef2

/-- The group loop: thread the cross-group `all_members` set and the
collected undefined-member list. -/
def checkGroups (models : List (Str × PyModelConfig)) :
    List (Str × PyGroupConfig) → List Str → List (Str × Str) → Except VErr (List (Str × Str))
  | [], _, undef => Except.ok undef
  | (gid, g) :: rest, seen, undef =>
    match checkMembers gid models g.members seen undef with
    | Except.error e => Except.error e
    | Except.ok (seen2, undef2) => checkGroups models rest seen2 undef2

/-- The hooks-preload loop: each entry must be a model id or a known alias. -/
def checkPreload (models : List (Str × PyModelConfig)) (aliasMap : List (Str × Str)) :
    List Str → Except VErr Unit
  | [] => Except.ok ()
  | p :: rest =>
    if !(List.lookup p models).isSome && !(List.lookup p aliasMap).isSome then
      Except.error (VErr.unknownPreload p)
    else checkPreload models aliasMap rest

/-- The per-field macro checks: nested-literal detection first, then the
first non-reserved reference missing from the macro table. -/
def checkFields (macros : List (Str × Str)) (mid : Str) :
    List (Str × Str) → Except VErr Unit
  | [] => Except.ok ()
  | (fname, fval) :: rest =>
    if containsSub fval nestedLit then Except.error (VErr.nestedMacroLit mid fname)
    else
      match (findMacrosV fval).find?
          (fun n => !reservedNames.contains n && !(List.lookup n macros).isSome) with
      | some n => Except.error (VErr.unknownMacroRef n mid fname)
      | none => checkFields macros mid rest

/-- The model loop of the macro usage check. -/
def checkModelMacroFields (macros : List (Str × Str)) :
    List (Str × PyModelConfig) → Except VErr Unit
  | [] => Except.ok ()
  | (mid, m) :: rest =>
    match checkFields macros mid (consistencyFields m) with
    | Except.error e => Except.error e
    | Except.ok _ => checkModelMacroFields macros rest

/-- `LlamaSwapConfig.validate_config_consistency`: the phase-2 cross-entity
checks, in source order; the first raised `ValueError` aborts the rest. -/
def validate_config_consistency (doc : PyDoc) : Except VErr (List (Str × Str)) := do
  let aliasMap ← buildAliasMap doc.models []
  let _ ← (if doc.groups.isEmpty then Except.ok ()
    else
      match checkGroups doc.models doc.groups [] [] with
      | Except.error e => Except.error e
      | Except.ok undef =>
        if undef.isEmpty then Except.ok ()
        else Except.error (VErr.undefinedMembers undef))
  let _ ← checkPreload doc.models aliasMap doc.preload
  let _ ← (if doc.macros.isEmpty then Except.ok ()
    else checkModelMacroFields doc.macros doc.models)
  Except.ok aliasMap

/-- `str.strip()` is empty: every character is whitespace. -/
def pyStripEmpty (s : Str) : Bool := s.all pyIsSpace

/-- Field-constraint errors of one model (each field validator contributes at
most one error; `env` raises at its first malformed entry). -/
def modelFieldErrs (mid : Str) (m : PyModelConfig) : List VErr :=
  (if pyStripEmpty m.cmd then [VErr.cmdEmpty mid] else [])
  ++ (match m.env.find? (fun ev => !ev.contains '=') with
      | some ev => [VErr.badEnv mid ev]
      | none => [])
  ++ (if vProxy m ≠ [] ∧ ¬("http://".data.isPrefixOf (vProxy m)
        ∨ "https://".data.isPrefixOf (vProxy m)) then [VErr.badProxy mid] else [])
  ++ (if m.ttl < 0 then [VErr.negTtl mid] else [])
  ++ (if m.concurrencyLimit < 0 then [VErr.negConcurrency mid] else [])

/-- Field-constraint errors of one group. -/
def groupFieldErrs (gid : Str) (g : PyGroupConfig) : List VErr :=
  if g.members.isEmpty then [VErr.groupEmpty gid]
  else if g.members.Nodup then [] else [VErr.groupDupMembers gid]

/-- First violation of the `macros` field validator, if any. -/
def macroEntryBad (e : Str × Str) : Option VErr :=
  if e.1.length ≥ 64 then some (VErr.macroNameTooLong e.1)
  else if ¬ macroNameOk e.1 then some (VErr.macroNameBad e.1)
  else if reservedNames.contains e.1 then some (VErr.macroReserved e.1)
  else if e.2.length ≥ 1024 then some (VErr.macroValueTooLong e.1)
  else none

/-- Valid log levels. -/
def logLevels : List Str := ["debug".data, "info".data, "warn".data, "error".data]

/-- Phase-1 field-constraint errors of the document (pydantic collects the
per-field findings; a failed field masks its own field validator only). -/
def fieldErrors (doc : PyDoc) : List VErr :=
  (if doc.healthCheckTimeout < 15 then [VErr.badHealthCheckTimeout] else [])
  ++ (match doc.logLevel with
      | none => []
      | some v => if logLevels.contains v then [] else [VErr.badLogLevel v])
  ++ (if doc.metricsMaxInMemory < 0 then [VErr.badMetricsMax] else [])
  ++ (let sub := doc.models.flatMap (fun p => modelFieldErrs p.1 p.2)
      if ¬ sub.isEmpty then sub
      else if doc.models.isEmpty then [VErr.noModels] else [])
  ++ doc.groups.flatMap (fun p => groupFieldErrs p.1 p.2)
  ++ (match doc.macros.findSome? macroEntryBad with
      | some e => [e]
      | none => [])
  ++ (if doc.startPort ≤ 0 ∨ doc.startPort ≥ 65536 then [VErr.badStartPort] else [])

/-- `validator.ValidationResult`. -/
structure ValidationResult where
  is_valid : Bool
  errors : List VErr
  warnings : List VErr
deriving DecidableEq

/-- `ValidationResult.add_error`. -/
def addError (r : ValidationResult) (e : VErr) : ValidationResult :=
  { is_valid := false, errors := r.errors ++ [e], warnings := r.warnings }

/-- `_validate_port_consistency`: collects one error per model whose
(validated) proxy references `${PORT}` while its cmd does not. -/
def validatePortConsistency (doc : PyDoc) (r : ValidationResult) : ValidationResult :=
  doc.models.foldl (fun acc p =>
    if (vProxy p.2 ≠ [] ∧ containsSub (vProxy p.2) portTok = true)
        ∧ containsSub p.2.cmd portTok = false
    then addError acc (VErr.portMismatch p.1) else acc) r

mutual
/-- `find_dependencies` of `_validate_macro_circular_references`, fuel-driven
(same measure as the Expander; the restricted reference pattern is used). -/
def findDepsFuel : Nat → List (Str × Str) → Str → List Str → Option Bool
  | 0, _, _, _ => none
  | Nat.succ fuel, macros, name, visited =>
    if visited.contains name then some true
    else
      match lookupStr macros name with
      | none => some false
      | some value => depsAny fuel macros (name :: visited) (findMacrosV value)
termination_by fuel _ _ _ => (fuel, 0)

/-- The dependency loop of `find_dependencies`. -/
def depsAny : Nat → List (Str × Str) → List Str → List Str → Option Bool
  | _, _, _, [] => some false
  | fuel, macros, visited, d :: ds =>
    match findDepsFuel fuel macros d visited with
    | none => none
    | some true => some true
    | some false => depsAny fuel macros visited ds
termination_by fuel _ _ ds => (fuel, ds.length + 1)
end

/-- Top-level `find_dependencies(name, set())` at sufficient fuel (`getD` is
never exercised: the fuel bound is sufficient by the same argument as for the
Expander). -/
def findDepsTop (macros : List (Str × Str)) (name : Str) : Bool :=
  (findDepsFuel (macros.length + 1) macros name []).getD false

/-- `_validate_macro_circular_references`: one error per cyclic macro. -/
def validateCircularMacroRefs (doc : PyDoc) (r : ValidationResult) : ValidationResult :=
  if doc.macros.isEmpty then r
  else doc.macros.foldl (fun acc p =>
    if findDepsTop doc.macros p.1 then addError acc (VErr.circularMacroErr p.1) else acc) r

/-- The pydantic construction step: collected field errors, or the single
error raised by the consistency validator. -/
def pydanticErrors (doc : PyDoc) : Option (List VErr) :=
  if ¬ (fieldErrors doc).isEmpty then some (fieldErrors doc)
  else
    match validate_config_consistency doc with
    | Except.error e => some [e]
    | Except.ok _ => none

/-- `validator.validate_with_pydantic`: a `ValidationError` becomes a report
with those errors; otherwise the two business checks accumulate into a fresh
report. -/
def validate_with_pydantic (doc : PyDoc) : ValidationResult :=
  match pydanticErrors doc with
  | some errs => { is_valid := false, errors := errs, warnings := [] }
  | none =>
    validateCircularMacroRefs doc
      (validatePortConsistency doc { is_valid := true, errors := [], warnings := [] })

/-- Outcome of `yaml.safe_load` as far as the validator's structural checks
observe it (a parse error is raised by the external parser, out of scope). -/
inductive YamlRoot where
  | isNull : YamlRoot
  | notMapping : YamlRoot
  | mapping (doc : PyDoc) : YamlRoot

/-- `validator.validate_yaml_string`, from the parse outcome onwards. -/
def validate_yaml_string : YamlRoot → ValidationResult
  | YamlRoot.isNull => { is_valid := false, errors := [VErr.topEmpty], warnings := [] }
  | YamlRoot.notMapping => { is_valid := false, errors := [VErr.topNotMapping], warnings := [] }
  | YamlRoot.mapping doc => validate_with_pydantic doc

/-- Specification-level enumeration of the undefined-member violations, in
scan order. -/
def specUndefinedMembers (doc : PyDoc) : List (Str × Str) :=
  doc.groups.flatMap (fun p =>
    (p.2.members.filter (fun mem => ¬ (List.lookup mem doc.models).isSome)).map
      (fun mem => (p.1, mem)))

/-- Number of groups containing a given model id. -/
def groupMembershipCount (doc : PyDoc) (m : Str) : Nat :=
  (doc.groups.filter (fun p => p.2.members.contains m)).length

/-- Report coherence: `is_valid` holds exactly when no error was recorded. -/
def ReportCoherent (r : ValidationResult) : Prop :=
  r.is_valid = true ↔ r.errors = []

instance {ε α : Type} [DecidableEq ε] [DecidableEq α] : DecidableEq (Except ε α) := fun a b =>
  match a, b with
  | Except.ok x, Except.ok y =>
    if h : x = y then isTrue (by rw [h]) else isFalse (fun hc => h (by cases hc; rfl))
  | Except.error x, Except.error y =>
    if h : x = y then isTrue (by rw [h]) else isFalse (fun hc => h (by cases hc; rfl))
  | Except.ok _, Except.error _ => isFalse (fun hc => by cases hc)
  | Except.error _, Except.ok _ => isFalse (fun hc => by cases hc)

/-- The macro table of the rightmost-wins example. -/
def c1table : List (Str × Str) :=
  [("first".data, "--ctx-size 32768".data), ("second".data, "--ctx-size 65536".data),
   ("combined".data, "${first} ${second}".data)]

/-- The mutual cycle `{"a": "${b}", "b": "${a}"}`. -/
def c2cycleTable : List (Str × Str) :=
  [("a".data, "${b}".data), ("b".data, "${a}".data)]

/-- A diamond-shaped dependency: `top` reaches `base` on two branches. -/
def c2diamondTable : List (Str × Str) :=
  [("top".data, "${l} ${r}".data), ("l".data, "${base}".data),
   ("r".data, "${base}".data), ("base".data, "--x 1".data)]

/-- The commands of the C6 ordering counterexample. -/
def c6commands : List Str := ["${bbb} ${aaa}".data]

/-- The table of the C6 ordering counterexample. -/
def c6table : List (Str × Str) := [("aaa".data, "1".data), ("bbb".data, "2".data)]

/-- A legal set iteration order that differs from first-discovery order. -/
def c6order : List Str := ["aaa".data, "bbb".data]

/-- C3 counterexample document: one undefined group member (`g1`/`ghost`) and
one model (`m1`) in two groups (`g2`, `g3`). -/
def c3doc : PyDoc :=
  { models := [("m1".data, { cmd := "llama-server --port ${PORT}".data })],
    groups := [("g1".data, { members := ["ghost".data] }),
               ("g2".data, { members := ["m1".data] }),
               ("g3".data, { members := ["m1".data] })] }

/-- C3 amended-claim witness document: two undefined members in two groups,
no model in two groups. -/
def c3wdoc : PyDoc :=
  { models := [("m1".data, { cmd := "llama-server --port ${PORT}".data })],
    groups := [("g1".data, { members := ["ghostA".data] }),
               ("g2".data, { members := ["m1".data, "ghostB".data] })] }

/-- C4 counterexample document: a model command containing the literal
`${${`, with no macros declared. -/
def c4doc : PyDoc :=
  { models := [("m".data,
      { cmd := "llama --port ${PORT} $\x7b$\x7by\x7d\x7d".data })] }

/-- C4 amended-claim witness document: same command, one macro declared. -/
def c4wdoc : PyDoc :=
  { models := [("m".data,
      { cmd := "llama --port ${PORT} $\x7b$\x7by\x7d\x7d".data })],
    macros := [("z".data, "1".data)] }

set_option maxHeartbeats 1000000

theorem takeWhile_append_all {α : Type} {p : α → Bool} {a : List α} (b : List α)
    (h : ∀ x ∈ a, p x = true) :
    (a ++ b).takeWhile p = a ++ b.takeWhile p := by
  induction a with
  | nil => simp
  | cons x xs ih =>
    have hx : p x = true := h x (by simp)
    simp only [List.cons_append, List.takeWhile_cons, hx]
    simp [ih (fun y hy => h y (by simp [hy]))]

theorem dropWhile_append_all {α : Type} {p : α → Bool} {a : List α} (b : List α)
    (h : ∀ x ∈ a, p x = true) :
    (a ++ b).dropWhile p = b.dropWhile p := by
  induction a with
  | nil => simp
  | cons x xs ih =>
    have hx : p x = true := h x (by simp)
    simp only [List.cons_append, List.dropWhile_cons, hx]
    exact ih (fun y hy => h y (by simp [hy]))

/-- Tokens produced by `pySplit` are nonempty and contain no whitespace. -/
theorem pySplit_tokens_wf :
    ∀ (s : Str) (t : Str), t ∈ pySplit s → t ≠ [] ∧ ∀ c ∈ t, pyIsSpace c = false := by
  intro s
  induction s using pySplit.induct with
  | case1 => intro t ht; simp [pySplit] at ht
  | case2 c rest hc ih =>
    intro t ht
    rw [pySplit, if_pos hc] at ht
    exact ih t ht
  | case3 c rest hc ih =>
    intro t ht
    rw [pySplit, if_neg hc, List.mem_cons] at ht
    rcases ht with ht | ht
    · subst ht
      refine ⟨by simp, ?_⟩
      intro d hd
      rw [List.mem_cons] at hd
      rcases hd with hd | hd
      · subst hd; simpa using hc
      · have := List.mem_takeWhile_imp hd
        simpa using this
    · exact ih t ht

/-- Splitting a single-space join recovers the token list, provided every token
is nonempty and whitespace-free (as is the case for `pySplit` output). -/
theorem pySplit_joinSpace (ts : List Str)
    (h : ∀ t ∈ ts, t ≠ [] ∧ ∀ c ∈ t, pyIsSpace c = false) :
    pySplit (joinSpace ts) = ts := by
  induction ts with
  | nil => simp [joinSpace, pySplit]
  | cons t rest ih =>
    obtain ⟨hne, hnc⟩ := h t (by simp)
    match rest, t, hne with
    | [], c :: t', _ =>
      have hc : pyIsSpace c = false := hnc c (by simp)
      have ht' : ∀ x ∈ t', (fun d => !pyIsSpace d) x = true := by
        intro x hx; simp [hnc x (by simp [hx])]
      rw [joinSpace, pySplit, if_neg (by simp [hc])]
      have h1 : List.takeWhile (fun d => !pyIsSpace d) t' = t' :=
        List.takeWhile_eq_self_iff.mpr ht'
      have h2 : List.dropWhile (fun d => !pyIsSpace d) t' = [] :=
        List.dropWhile_eq_nil_iff.mpr (fun x hx => ht' x hx)
      rw [h1, h2]
      simp [pySplit]
    | u :: rest', c :: t', _ =>
      have hc : pyIsSpace c = false := hnc c (by simp)
      have ht' : ∀ x ∈ t', (fun d => !pyIsSpace d) x = true := by
        intro x hx; simp [hnc x (by simp [hx])]
      rw [joinSpace]
      simp only [List.cons_append]
      rw [pySplit, if_neg (by simp [hc])]
      rw [takeWhile_append_all (' ' :: joinSpace (u :: rest')) ht',
        dropWhile_append_all (' ' :: joinSpace (u :: rest')) ht']
      have hsp : pyIsSpace ' ' = true := by simp [pyIsSpace]
      have e1 : List.takeWhile (fun d => !pyIsSpace d) (' ' :: joinSpace (u :: rest')) = [] := by
        simp [List.takeWhile_cons, hsp]
      have e2 : List.dropWhile (fun d => !pyIsSpace d) (' ' :: joinSpace (u :: rest')) =
          ' ' :: joinSpace (u :: rest') := by
        simp [List.dropWhile_cons, hsp]
      rw [e1, e2, List.append_nil]
      rw [pySplit, if_pos hsp]
      exact congrArg (List.cons (c :: t')) (ih (fun x hx => h x (by simp [hx])))

theorem takeWhile_dropWhile_nil {α : Type} (p : α → Bool) (l : List α) :
    (l.dropWhile p).takeWhile p = [] := by
  induction l with
  | nil => simp
  | cons x xs ih =>
    rw [List.dropWhile_cons]
    split
    · exact ih
    · rename_i hx
      rw [List.takeWhile_cons]
      simp [hx]

theorem dropWhile_dropWhile {α : Type} (p : α → Bool) (l : List α) :
    (l.dropWhile p).dropWhile p = l.dropWhile p := by
  induction l with
  | nil => simp
  | cons x xs ih =>
    rw [List.dropWhile_cons]
    split
    · exact ih
    · rename_i hx
      rw [List.dropWhile_cons]
      simp [hx]

theorem scanAux_cons_flag (t : Str) (rest : List Str) (i : Nat) (h : isFlag t = true) :
    scanAux (t :: rest) i =
      ((t, i, List.range' (i + 1) (rest.takeWhile notFlag).length) ::
          (scanAux (rest.dropWhile notFlag) (i + 1 + (rest.takeWhile notFlag).length)).1,
        (scanAux (rest.dropWhile notFlag) (i + 1 + (rest.takeWhile notFlag).length)).2) := by
  rw [scanAux, if_pos h]

theorem scanAux_cons_nonflag (t : Str) (rest : List Str) (i : Nat) (h : ¬isFlag t = true) :
    scanAux (t :: rest) i =
      ((scanAux rest (i + 1)).1, i :: (scanAux rest (i + 1)).2) := by
  rw [scanAux, if_neg h]

/-- Characterization of the scan: the standalone indices are exactly the
positions of the leading non-flag tokens, and the flag occurrences are the
entries generated blockwise from the first flag onwards. -/
theorem scanAux_eq : ∀ (ts : List Str) (i : Nat),
    scanAux ts i =
      (blockEntries (toBlocks (ts.dropWhile notFlag)) (i + (ts.takeWhile notFlag).length),
        List.range' i (ts.takeWhile notFlag).length) := by
  intro ts i
  induction ts, i using scanAux.induct with
  | case1 i => simp [scanAux, toBlocks, blockEntries]
  | case2 t rest i hflag vals ih =>
    have hnf : notFlag t = false := by simp [notFlag, hflag]
    have hd : List.dropWhile notFlag (t :: rest) = t :: rest := by
      rw [List.dropWhile_cons]; simp [hnf]
    have ht : List.takeWhile notFlag (t :: rest) = [] := by
      rw [List.takeWhile_cons]; simp [hnf]
    rw [scanAux_cons_flag t rest i hflag, ht, hd, toBlocks, blockEntries, ih,
      takeWhile_dropWhile_nil, dropWhile_dropWhile]
    simp
  | case3 t rest i hflag ih =>
    have hnf : notFlag t = true := by simp [notFlag, hflag]
    have hd : List.dropWhile notFlag (t :: rest) = List.dropWhile notFlag rest := by
      rw [List.dropWhile_cons]; simp [hnf]
    have ht : List.takeWhile notFlag (t :: rest) = t :: List.takeWhile notFlag rest := by
      rw [List.takeWhile_cons]; simp [hnf]
    rw [scanAux_cons_nonflag t rest i hflag, ht, hd, ih]
    simp only [List.length_cons]
    rw [List.range'_succ]
    have harith : i + 1 + (List.takeWhile notFlag rest).length
        = i + ((List.takeWhile notFlag rest).length + 1) := by omega
    rw [harith]

theorem includedIdx_eq (ps : List (Str × Nat × List Nat)) (ss : List Nat) (n : Nat) :
    includedIdx ps ss n = (ss.contains n || incPs ps n) := rfl

theorem lastOcc_cons (e : Str × Nat × List Nat) (es : List (Str × Nat × List Nat)) (f : Str) :
    lastOcc (e :: es) f =
      if es.any (fun x => x.1 == f) then lastOcc es f
      else if e.1 == f then some e.2 else none := by
  unfold lastOcc
  rw [List.reverse_cons, List.find?_append]
  by_cases hdup : es.any (fun x => x.1 == f) = true
  · obtain ⟨x, hx, hxf⟩ := List.any_eq_true.mp hdup
    have : ∃ y, List.find? (fun e => e.1 == f) es.reverse = some y := by
      have : (List.find? (fun e => e.1 == f) es.reverse).isSome = true := by
        rw [List.find?_isSome]
        exact ⟨x, List.mem_reverse.mpr hx, hxf⟩
      exact Option.isSome_iff_exists.mp this
    obtain ⟨y, hy⟩ := this
    rw [hy, if_pos hdup]
    simp [Option.or]
  · have hnone : List.find? (fun e => e.1 == f) es.reverse = none := by
      rw [List.find?_eq_none]
      intro x hx
      have := List.any_eq_true.not.mp hdup
      push_neg at this
      simpa using this x (List.mem_reverse.mp hx)
    rw [hnone, if_neg hdup]
    simp only [Option.none_or]
    rw [List.find?_cons]
    by_cases hef : (e.1 == f) = true
    · rw [if_pos hef]; simp [hef]
    · rw [if_neg hef]; simp [hef, List.find?_nil]

theorem lastOcc_mem {ps : List (Str × Nat × List Nat)} {f : Str} {pv : Nat × List Nat}
    (h : lastOcc ps f = some pv) : ∃ e ∈ ps, e.1 = f ∧ e.2 = pv := by
  unfold lastOcc at h
  cases hf : List.find? (fun e => e.1 == f) ps.reverse with
  | none => rw [hf] at h; simp at h
  | some e =>
    rw [hf] at h
    simp only [Option.some.injEq] at h
    refine ⟨e, List.mem_reverse.mp (List.mem_of_find?_eq_some hf), ?_, h⟩
    have := List.find?_some hf
    simpa using this

theorem lastOcc_isSome_of_mem {ps : List (Str × Nat × List Nat)} {e : Str × Nat × List Nat}
    (h : e ∈ ps) : ∃ pv, lastOcc ps e.1 = some pv := by
  unfold lastOcc
  have : (List.find? (fun x => x.1 == e.1) ps.reverse).isSome = true := by
    rw [List.find?_isSome]
    exact ⟨e, List.mem_reverse.mpr h, by simp⟩
  obtain ⟨y, hy⟩ := Option.isSome_iff_exists.mp this
  rw [hy]
  exact ⟨y.2, rfl⟩

/-- Every index recorded in `blockEntries bs s` is at least `s`. -/
theorem blockEntries_lb : ∀ (bs : List (Str × List Str)) (s : Nat),
    ∀ e ∈ blockEntries bs s, s ≤ e.2.1 ∧ ∀ v ∈ e.2.2, s ≤ v := by
  intro bs
  induction bs with
  | nil => intro s e he; simp [blockEntries] at he
  | cons b bs ih =>
    intro s e he
    rw [show b = (b.1, b.2) from rfl, blockEntries, List.mem_cons] at he
    rcases he with he | he
    · subst he
      refine ⟨le_refl s, ?_⟩
      intro v hv
      rw [List.mem_range'_1] at hv
      omega
    · have := ih (s + 1 + b.2.length) e he
      exact ⟨by omega, fun v hv => by have := this.2 v hv; omega⟩

/-- Every index recorded in `blockEntries bs s` is below `s` plus the flattened
length. -/
theorem blockEntries_ub : ∀ (bs : List (Str × List Str)) (s : Nat),
    ∀ e ∈ blockEntries bs s,
      e.2.1 < s + (flatBlocks bs).length ∧ ∀ v ∈ e.2.2, v < s + (flatBlocks bs).length := by
  intro bs
  induction bs with
  | nil => intro s e he; simp [blockEntries] at he
  | cons b bs ih =>
    intro s e he
    have hlen : (flatBlocks (b :: bs)).length
        = 1 + b.2.length + (flatBlocks bs).length := by
      simp [flatBlocks, List.flatMap_cons]
      omega
    rw [show b = (b.1, b.2) from rfl, blockEntries, List.mem_cons] at he
    rcases he with he | he
    · subst he
      refine ⟨by simp only [hlen]; omega, ?_⟩
      intro v hv
      rw [List.mem_range'_1] at hv
      simp only [hlen]
      omega
    · have := ih (s + 1 + b.2.length) e he
      refine ⟨by have := this.1; simp only [hlen]; omega,
        fun v hv => by have := this.2 v hv; simp only [hlen]; omega⟩

/-- Keys of the generated entries are the block keys. -/
theorem blockEntries_any_key : ∀ (bs : List (Str × List Str)) (s : Nat) (f : Str),
    (blockEntries bs s).any (fun e => e.1 == f) = bs.any (fun b => b.1 == f) := by
  intro bs
  induction bs with
  | nil => intro s f; simp [blockEntries]
  | cons b bs ih =>
    intro s f
    rw [show b = (b.1, b.2) from rfl, blockEntries]
    simp only [List.any_cons]
    rw [ih]

theorem contains_nat_eq (l : List Nat) (n : Nat) : l.contains n = decide (n ∈ l) :=
  List.elem_eq_mem n l

/-- Below the first block index nothing is included via flag occurrences. -/
theorem incPs_lt (bs : List (Str × List Str)) (s n : Nat) (hn : n < s) :
    incPs (blockEntries bs s) n = false := by
  unfold incPs
  rw [List.any_eq_false]
  intro e he
  cases hlo : lastOcc (blockEntries bs s) e.1 with
  | none => simp
  | some pv =>
    obtain ⟨m, hm, _, hm2⟩ := lastOcc_mem hlo
    obtain ⟨h1, h2⟩ := blockEntries_lb bs s m hm
    rw [hm2] at h1 h2
    have hne : (n == pv.1) = false := by simp only [beq_eq_false_iff_ne]; omega
    have hnm : pv.2.contains n = false := by
      rw [contains_nat_eq, decide_eq_false_iff_not]
      intro hmem
      have := h2 n hmem
      omega
    intro hcon
    have hcon2 : (n == pv.1 || pv.2.contains n) = true := hcon
    rw [hne, hnm] at hcon2
    simp at hcon2

/-- Above the first block index, inclusion via flag occurrences coincides with
lying in the rightmost block of some flag. -/
theorem incPs_ge : ∀ (bs : List (Str × List Str)) (s n : Nat), s ≤ n →
    incPs (blockEntries bs s) n = keptPos bs s n := by
  intro bs
  induction bs with
  | nil => intro s n _; simp [incPs, blockEntries, keptPos]
  | cons b bs ih =>
    intro s n hsn
    obtain ⟨f, vs⟩ := b
    rw [blockEntries, keptPos]
    set es := blockEntries bs (s + 1 + vs.length) with hes
    set e0 : Str × Nat × List Nat := (f, s, List.range' (s + 1) vs.length) with he0
    by_cases hn : n < s + 1 + vs.length
    · rw [if_pos hn]
      by_cases hdup : bs.any (fun b2 => b2.1 == f) = true
      · -- a later block redefines `f`: nothing in this block survives
        rw [hdup]
        simp only [Bool.not_true]
        have hdupE : es.any (fun x => x.1 == f) = true := by
          rw [hes, blockEntries_any_key]; exact hdup
        unfold incPs
        rw [List.any_eq_false]
        intro e he
        cases hlo : lastOcc (e0 :: es) e.1 with
        | none => simp
        | some pv =>
          -- the final occurrence of any key lies in `es`, hence beyond `n`
          have hpv : ∃ m ∈ es, m.2 = pv := by
            rcases lastOcc_mem hlo with ⟨m, hm, hmf, hm2⟩
            rw [List.mem_cons] at hm
            rcases hm with hm | hm
            · -- m = e0, so e.1 = f; but then the last occurrence is in es
              subst hm
              have hef : e.1 = f := by rw [← hmf, he0]
              rw [lastOcc_cons, hef, if_pos hdupE] at hlo
              rcases lastOcc_mem hlo with ⟨m', hm', _, hm'2⟩
              exact ⟨m', hm', hm'2⟩
            · exact ⟨m, hm, hm2⟩
          rcases hpv with ⟨m, hm, hm2⟩
          obtain ⟨h1, h2⟩ := blockEntries_lb bs (s + 1 + vs.length) m hm
          rw [hm2] at h1 h2
          have hne : (n == pv.1) = false := by simp only [beq_eq_false_iff_ne]; omega
          have hnm : pv.2.contains n = false := by
            rw [contains_nat_eq, decide_eq_false_iff_not]
            intro hmem
            have := h2 n hmem
            omega
          intro hcon
          have hcon2 : (n == pv.1 || pv.2.contains n) = true := hcon
          rw [hne, hnm] at hcon2
          simp at hcon2
      · -- this block is the rightmost block of `f`: index survives
        rw [Bool.not_eq_true] at hdup
        rw [hdup]
        simp only [Bool.not_false]
        have hdupE : es.any (fun x => x.1 == f) = false := by
          rw [hes, blockEntries_any_key]; exact hdup
        unfold incPs
        rw [List.any_eq_true]
        refine ⟨e0, by simp, ?_⟩
        have hlo : lastOcc (e0 :: es) e0.1 = some e0.2 := by
          rw [lastOcc_cons, he0]
          simp only [hdupE, Bool.false_eq_true, if_false, beq_self_eq_true, if_true]
        rw [hlo]
        simp only [he0]
        by_cases hns : n = s
        · simp [hns]
        · have : n ∈ List.range' (s + 1) vs.length := by
            rw [List.mem_range'_1]
            omega
          rw [contains_nat_eq]
          simp [this]
    · rw [if_neg hn]
      have hge : s + 1 + vs.length ≤ n := by omega
      rw [← ih (s + 1 + vs.length) n hge]
      -- dropping the head entry does not change inclusion beyond this block
      have hlast : ∀ e ∈ es, lastOcc (e0 :: es) e.1 = lastOcc es e.1 := by
        intro e he
        rw [lastOcc_cons, if_pos (List.any_eq_true.mpr ⟨e, he, by simp⟩)]
      unfold incPs
      cases hR : (es.any fun e =>
          match lastOcc es e.1 with
          | some pv => n == pv.1 || pv.2.contains n
          | none => false) with
      | true =>
        rcases List.any_eq_true.mp hR with ⟨e, he, hp⟩
        apply List.any_eq_true.mpr
        refine ⟨e, List.mem_cons_of_mem e0 he, ?_⟩
        show (match lastOcc (e0 :: es) e.1 with
          | some pv => n == pv.1 || pv.2.contains n
          | none => false) = true
        rw [hlast e he]
        exact hp
      | false =>
        apply List.any_eq_false.mpr
        intro e he hcon
        rw [List.mem_cons] at he
        rcases he with he | he
        · subst he
          have hcon2 : (match lastOcc (e0 :: es) e0.1 with
            | some pv => n == pv.1 || pv.2.contains n
            | none => false) = true := hcon
          by_cases hdupE : es.any (fun x => x.1 == f) = true
          · have hloE : lastOcc (e0 :: es) e0.1 = lastOcc es f := by
              rw [lastOcc_cons, he0, if_pos hdupE]
            rw [hloE] at hcon2
            rcases List.any_eq_true.mp hdupE with ⟨m, hm, hmf⟩
            have hmf2 : m.1 = f := by simpa using hmf
            have hQm : (match lastOcc es m.1 with
              | some pv => n == pv.1 || pv.2.contains n
              | none => false) = true := by
              rw [hmf2]
              exact hcon2
            exact absurd hQm (List.any_eq_false.mp hR m hm)
          · rw [Bool.not_eq_true] at hdupE
            have hloE : lastOcc (e0 :: es) e0.1 = some e0.2 := by
              rw [lastOcc_cons, he0]
              simp only [hdupE, Bool.false_eq_true, if_false, beq_self_eq_true, if_true]
            rw [hloE] at hcon2
            have hcon3 : (n == s || (List.range' (s + 1) vs.length).contains n) = true := hcon2
            have hne : (n == s) = false := by
              simp only [beq_eq_false_iff_ne]; omega
            have hnm : (List.range' (s + 1) vs.length).contains n = false := by
              rw [contains_nat_eq, decide_eq_false_iff_not]
              intro hmem
              rw [List.mem_range'_1] at hmem
              omega
            rw [hne, hnm] at hcon3
            simp at hcon3
        · have hcon2 : (match lastOcc (e0 :: es) e.1 with
            | some pv => n == pv.1 || pv.2.contains n
            | none => false) = true := hcon
          rw [hlast e he] at hcon2
          exact absurd hcon2 (List.any_eq_false.mp hR e he)

theorem filter_range'_all_true (p : Nat → Bool) :
    ∀ (len s : Nat), (∀ n, s ≤ n → n < s + len → p n = true) →
      (List.range' s len).filter p = List.range' s len := by
  intro len
  induction len with
  | zero => intro s _; simp
  | succ k ih =>
    intro s h
    rw [List.range'_succ, List.filter_cons, if_pos (h s (le_refl s) (by omega))]
    rw [ih (s + 1) (fun n h1 h2 => h n (by omega) (by omega))]

theorem filter_range'_all_false (p : Nat → Bool) :
    ∀ (len s : Nat), (∀ n, s ≤ n → n < s + len → p n = false) →
      (List.range' s len).filter p = [] := by
  intro len
  induction len with
  | zero => intro s _; simp
  | succ k ih =>
    intro s h
    rw [List.range'_succ, List.filter_cons]
    rw [h s (le_refl s) (by omega)]
    simp only [Bool.false_eq_true, if_false]
    exact ih (s + 1) (fun n h1 h2 => h n (by omega) (by omega))

theorem map_getD_range' (main : List Str) :
    ∀ (l : List Str) (s : Nat),
      (∀ k, k < l.length → main.getD (s + k) [] = l.getD k []) →
      (List.range' s l.length).map (fun n => main.getD n []) = l := by
  intro l
  induction l with
  | nil => intro s _; simp
  | cons x xs ih =>
    intro s h
    rw [List.length_cons, List.range'_succ, List.map_cons]
    have h0 := h 0 (by simp)
    simp only [Nat.add_zero] at h0
    rw [h0]
    simp only [List.getD_cons_zero]
    congr 1
    exact ih (s + 1) (fun k hk => by
      have := h (k + 1) (by simp; omega)
      rw [show s + (k + 1) = s + 1 + k by omega] at this
      simpa using this)

theorem flatBlocks_toBlocks : ∀ (l : List Str), flatBlocks (toBlocks l) = l := by
  intro l
  induction l using toBlocks.induct with
  | case1 => simp [toBlocks, flatBlocks]
  | case2 t rest ih =>
    rw [toBlocks, flatBlocks, List.flatMap_cons]
    have ih2 : (toBlocks (List.dropWhile notFlag rest)).flatMap (fun b => b.1 :: b.2)
        = List.dropWhile notFlag rest := ih
    rw [ih2]
    simp [List.takeWhile_append_dropWhile]

theorem flatBlocks_cons (b : Str × List Str) (bs : List (Str × List Str)) :
    flatBlocks (b :: bs) = b.1 :: (b.2 ++ flatBlocks bs) := by
  simp [flatBlocks, List.flatMap_cons]

/-- Reassembly of the surviving indices from the first flag onwards: filtering
the index range with a predicate matching `keptPos` and reading the tokens
back yields the flattened surviving blocks. -/
theorem filter_map_blocks (main : List Str) :
    ∀ (bs : List (Str × List Str)) (s : Nat) (p : Nat → Bool),
      (∀ n, s ≤ n → n < s + (flatBlocks bs).length → p n = keptPos bs s n) →
      (∀ k, k < (flatBlocks bs).length → main.getD (s + k) [] = (flatBlocks bs).getD k []) →
      ((List.range' s (flatBlocks bs).length).filter p).map (fun n => main.getD n []) =
        flatBlocks (keepLastBlocks bs) := by
  intro bs
  induction bs with
  | nil => intro s p _ _; simp [flatBlocks, keepLastBlocks]
  | cons b bs ih =>
    intro s p hp hget
    obtain ⟨f, vs⟩ := b
    have hflat : flatBlocks ((f, vs) :: bs) = f :: (vs ++ flatBlocks bs) :=
      flatBlocks_cons (f, vs) bs
    have hlen : (flatBlocks ((f, vs) :: bs)).length
        = (1 + vs.length) + (flatBlocks bs).length := by
      rw [hflat]; simp; omega
    have hsplit : List.range' s ((flatBlocks ((f, vs) :: bs)).length)
        = List.range' s (1 + vs.length) ++ List.range' (s + (1 + vs.length)) (flatBlocks bs).length := by
      rw [hlen]
      rw [show (1 + vs.length) + (flatBlocks bs).length
          = (flatBlocks bs).length + (1 + vs.length) by omega]
      rw [← List.range'_append s (1 + vs.length) (flatBlocks bs).length 1]
      simp
    rw [hsplit, List.filter_append, List.map_append]
    -- value of the predicate over the head block's range
    have hkept : ∀ n, s ≤ n → n < s + (1 + vs.length) →
        keptPos ((f, vs) :: bs) s n = !(bs.any (fun b2 => b2.1 == f)) := by
      intro n h1 h2
      rw [keptPos, if_pos (by omega)]
    -- IH applies to the second segment
    have htail : ((List.range' (s + (1 + vs.length)) (flatBlocks bs).length).filter p).map
          (fun n => main.getD n []) = flatBlocks (keepLastBlocks bs) := by
      apply ih (s + (1 + vs.length)) p
      · intro n h1 h2
        have hp' := hp n (by omega) (by rw [hlen]; omega)
        rw [hp', keptPos, if_neg (by omega)]
        have harith : s + (1 + vs.length) = s + 1 + vs.length := by omega
        rw [harith]
      · intro k hk
        have := hget ((1 + vs.length) + k) (by rw [hlen]; omega)
        rw [show s + ((1 + vs.length) + k) = s + (1 + vs.length) + k by omega] at this
        rw [this, hflat]
        have : (f :: (vs ++ flatBlocks bs)).getD (1 + vs.length + k) []
            = (flatBlocks bs).getD k [] := by
          rw [List.getD_eq_getElem?_getD, List.getD_eq_getElem?_getD]
          rw [show (1 + vs.length + k) = (vs.length + k) + 1 by omega]
          rw [List.getElem?_cons_succ]
          rw [List.getElem?_append_right (by omega)]
          simp
        rw [this]
    by_cases hdup : bs.any (fun b2 => b2.1 == f) = true
    · -- superseded block: first segment filtered away
      have hfirst : (List.range' s (1 + vs.length)).filter p = [] := by
        apply filter_range'_all_false
        intro n h1 h2
        rw [hp n h1 (by rw [hlen]; omega), hkept n h1 h2, hdup]
        simp
      have hkl : keepLastBlocks ((f, vs) :: bs) = keepLastBlocks bs := by
        rw [keepLastBlocks]
        simp [hdup]
      rw [hfirst]
      simp only [List.map_nil, List.nil_append]
      rw [htail, hkl]
    · -- rightmost block: first segment fully kept
      rw [Bool.not_eq_true] at hdup
      have hfirst : (List.range' s (1 + vs.length)).filter p = List.range' s (1 + vs.length) := by
        apply filter_range'_all_true
        intro n h1 h2
        rw [hp n h1 (by rw [hlen]; omega), hkept n h1 h2, hdup]
        simp
      rw [hfirst]
      have hmapfirst : (List.range' s (1 + vs.length)).map (fun n => main.getD n [])
          = f :: vs := by
        have hlfv : (1 + vs.length) = (f :: vs).length := by simp; omega
        rw [hlfv]
        apply map_getD_range'
        intro k hk
        rw [hget k (by rw [hlen]; simp at hk; omega), hflat]
        rw [List.getD_eq_getElem?_getD, List.getD_eq_getElem?_getD]
        cases k with
        | zero => simp
        | succ k2 =>
          rw [List.getElem?_cons_succ, List.getElem?_cons_succ]
          rw [List.getElem?_append]
          rw [if_pos (by simp at hk; omega)]
      have hkl : keepLastBlocks ((f, vs) :: bs) = (f, vs) :: keepLastBlocks bs := by
        rw [keepLastBlocks]
        simp [hdup]
      rw [hmapfirst, htail, hkl, flatBlocks_cons]
      simp

/-- The index-set implementation of `deduplicate_parameters` coincides with
the specification-level description: leading non-flag tokens survive, and for
every flag only the rightmost occurrence with its contiguous value tokens
survives, in positional order. -/
theorem dedupTokens_eq_spec (ts : List Str) : dedupTokens ts = dedupSpecTokens ts := by
  unfold dedupTokens dedupSpecTokens
  rw [scanAux_eq ts 0]
  set pre := ts.takeWhile notFlag with hpre
  set post := ts.dropWhile notFlag with hpost
  set bs := toBlocks post with hbs
  have hflat : flatBlocks bs = post := by rw [hbs]; exact flatBlocks_toBlocks post
  have hts : pre ++ post = ts := by rw [hpre, hpost]; exact List.takeWhile_append_dropWhile notFlag ts
  have hlen : ts.length = pre.length + post.length := by rw [← hts]; simp
  simp only [Nat.zero_add]
  rw [hlen, List.range_eq_range']
  have hsplit : List.range' 0 (pre.length + post.length)
      = List.range' 0 pre.length ++ List.range' pre.length post.length := by
    rw [show pre.length + post.length = post.length + pre.length by omega]
    rw [← List.range'_append 0 pre.length post.length 1]
    simp
  rw [hsplit, List.filter_append, List.map_append]
  set PS := blockEntries bs pre.length with hPS
  set SS := List.range' 0 pre.length with hSS
  have hcont : ∀ n : Nat, SS.contains n = decide (n < pre.length) := by
    intro n
    rw [hSS, contains_nat_eq, decide_eq_decide, List.mem_range'_1]
    omega
  -- first segment: every leading index is included
  have hA : (List.range' 0 pre.length).filter (fun n => includedIdx PS SS n)
      = List.range' 0 pre.length := by
    apply filter_range'_all_true
    intro n h1 h2
    rw [includedIdx_eq, hcont n]
    simp only [Nat.zero_add] at h2
    simp [h2]
  have hmapA : (List.range' 0 pre.length).map (fun n => ts.getD n [])
      = pre := by
    have hlpre : pre.length = pre.length := rfl
    apply map_getD_range'
    intro k hk
    simp only [Nat.zero_add]
    rw [← hts]
    rw [List.getD_eq_getElem?_getD, List.getD_eq_getElem?_getD, List.getElem?_append]
    rw [if_pos hk]
  -- second segment: inclusion is rightmost-block membership
  have hB : ((List.range' pre.length post.length).filter (fun n => includedIdx PS SS n)).map
        (fun n => ts.getD n []) = flatBlocks (keepLastBlocks bs) := by
    rw [show post.length = (flatBlocks bs).length by rw [hflat]]
    apply filter_map_blocks
    · intro n h1 h2
      rw [includedIdx_eq, hcont n]
      have hdec : decide (n < pre.length) = false := by
        rw [decide_eq_false_iff_not]; omega
      rw [hdec, Bool.false_or, hPS]
      exact incPs_ge bs pre.length n h1
    · intro k hk
      rw [← hts, hflat]
      rw [List.getD_eq_getElem?_getD, List.getD_eq_getElem?_getD]
      have hle : pre.length ≤ pre.length + k := by omega
      rw [List.getElem?_append_right hle]
      have hidx : pre.length + k - pre.length = k := by omega
      rw [hidx]
  rw [hA, hmapA, hB]

theorem keepLastBlocks_sublist : ∀ (bs : List (Str × List Str)), (keepLastBlocks bs).Sublist bs := by
  intro bs
  induction bs with
  | nil => simp [keepLastBlocks]
  | cons b bs ih =>
    rw [keepLastBlocks]
    split
    · exact ih.trans (List.sublist_cons_self b bs)
    · exact ih.cons₂ b

theorem flatBlocks_sublist_of_sublist {bs1 bs2 : List (Str × List Str)}
    (h : bs1.Sublist bs2) : (flatBlocks bs1).Sublist (flatBlocks bs2) := by
  induction h with
  | slnil => simp [flatBlocks]
  | cons b _ ih =>
    rw [flatBlocks_cons]
    exact ih.trans ((List.sublist_append_right b.2 (flatBlocks _)).trans
      (List.sublist_cons_self b.1 _))
  | cons₂ b _ ih =>
    rw [flatBlocks_cons, flatBlocks_cons]
    exact (ih.append_left b.2).cons₂ b.1

/-- The deduplicated token sequence is a subsequence of the input tokens. -/
theorem dedupTokens_sublist (ts : List Str) : (dedupTokens ts).Sublist ts := by
  rw [dedupTokens_eq_spec, dedupSpecTokens]
  have h1 : (flatBlocks (keepLastBlocks (toBlocks (ts.dropWhile notFlag)))).Sublist
      (ts.dropWhile notFlag) := by
    have := flatBlocks_sublist_of_sublist (keepLastBlocks_sublist (toBlocks (ts.dropWhile notFlag)))
    rwa [flatBlocks_toBlocks] at this
  have h2 := h1.append_left (ts.takeWhile notFlag)
  rw [List.takeWhile_append_dropWhile] at h2
  exact h2

theorem headFlag_dropWhile (l : List Str) : headFlag (l.dropWhile notFlag) := by
  induction l with
  | nil => simp [headFlag]
  | cons x xs ih =>
    rw [List.dropWhile_cons]
    split
    · exact ih
    · rename_i hx
      show isFlag x = true
      simpa [notFlag] using hx

theorem toBlocks_wf : ∀ (l : List Str), headFlag l →
    ∀ b ∈ toBlocks l, isFlag b.1 = true ∧ ∀ v ∈ b.2, notFlag v = true := by
  intro l
  induction l using toBlocks.induct with
  | case1 => intro _ b hb; simp [toBlocks] at hb
  | case2 t rest ih =>
    intro hh b hb
    rw [toBlocks, List.mem_cons] at hb
    rcases hb with hb | hb
    · subst hb
      exact ⟨hh, fun v hv => List.mem_takeWhile_imp hv⟩
    · exact ih (headFlag_dropWhile rest) b hb

theorem flatBlocks_headFlag (bs : List (Str × List Str))
    (h : ∀ b ∈ bs, isFlag b.1 = true) : headFlag (flatBlocks bs) := by
  cases bs with
  | nil => simp [flatBlocks, headFlag]
  | cons b bs =>
    rw [flatBlocks_cons]
    exact h b (by simp)

theorem takeWhile_flatBlocks_nil (bs : List (Str × List Str))
    (h : ∀ b ∈ bs, isFlag b.1 = true) :
    (flatBlocks bs).takeWhile notFlag = [] := by
  cases bs with
  | nil => simp [flatBlocks]
  | cons b bs =>
    rw [flatBlocks_cons, List.takeWhile_cons]
    have := h b (by simp)
    simp [notFlag, this]

theorem dropWhile_flatBlocks_self (bs : List (Str × List Str))
    (h : ∀ b ∈ bs, isFlag b.1 = true) :
    (flatBlocks bs).dropWhile notFlag = flatBlocks bs := by
  cases bs with
  | nil => simp [flatBlocks]
  | cons b bs =>
    rw [flatBlocks_cons, List.dropWhile_cons]
    have := h b (by simp)
    simp [notFlag, this]

/-- `toBlocks` is a left inverse of `flatBlocks` on well-formed blocks. -/
theorem toBlocks_flatBlocks : ∀ (bs : List (Str × List Str)),
    (∀ b ∈ bs, isFlag b.1 = true ∧ ∀ v ∈ b.2, notFlag v = true) →
    toBlocks (flatBlocks bs) = bs := by
  intro bs
  induction bs with
  | nil => intro _; simp [flatBlocks, toBlocks]
  | cons b bs ih =>
    intro h
    obtain ⟨hf, hv⟩ := h b (by simp)
    have hkeys : ∀ b2 ∈ bs, isFlag b2.1 = true := fun b2 hb2 => (h b2 (by simp [hb2])).1
    rw [flatBlocks_cons, toBlocks]
    rw [takeWhile_append_all (flatBlocks bs) hv, dropWhile_append_all (flatBlocks bs) hv]
    rw [takeWhile_flatBlocks_nil bs hkeys, dropWhile_flatBlocks_self bs hkeys]
    rw [ih (fun b2 hb2 => h b2 (by simp [hb2]))]
    simp

theorem keepLastBlocks_pairwise (bs : List (Str × List Str)) :
    (keepLastBlocks bs).Pairwise (fun x y => (y.1 == x.1) = false) := by
  induction bs with
  | nil => simp [keepLastBlocks]
  | cons b bs ih =>
    rw [keepLastBlocks]
    split
    · exact ih
    · rename_i hdup
      rw [Bool.not_eq_true] at hdup
      refine List.Pairwise.cons ?_ ih
      intro y hy
      have hyb : y ∈ bs := (keepLastBlocks_sublist bs).mem hy
      have := List.any_eq_false.mp hdup y hyb
      rwa [Bool.not_eq_true] at this

theorem keepLastBlocks_of_pairwise : ∀ (bs : List (Str × List Str)),
    bs.Pairwise (fun x y => (y.1 == x.1) = false) → keepLastBlocks bs = bs := by
  intro bs
  induction bs with
  | nil => intro _; simp [keepLastBlocks]
  | cons b bs ih =>
    intro h
    rw [List.pairwise_cons] at h
    have hdup : (bs.any fun b2 => b2.1 == b.1) = false := by
      rw [List.any_eq_false]
      intro b2 hb2
      rw [h.1 b2 hb2]
      simp
    rw [keepLastBlocks, if_neg (by rw [hdup]; simp), ih h.2]

/-- Token-level idempotence of deduplication. -/
theorem dedupSpecTokens_idem (ts : List Str) :
    dedupSpecTokens (dedupSpecTokens ts) = dedupSpecTokens ts := by
  unfold dedupSpecTokens
  set pre := ts.takeWhile notFlag with hpre
  set bs := toBlocks (ts.dropWhile notFlag) with hbs
  have hwf : ∀ b ∈ bs, isFlag b.1 = true ∧ ∀ v ∈ b.2, notFlag v = true :=
    toBlocks_wf (ts.dropWhile notFlag) (headFlag_dropWhile ts) 
  have hklwf : ∀ b ∈ keepLastBlocks bs, isFlag b.1 = true ∧ ∀ v ∈ b.2, notFlag v = true :=
    fun b hb => hwf b ((keepLastBlocks_sublist bs).mem hb)
  have hklkeys : ∀ b ∈ keepLastBlocks bs, isFlag b.1 = true := fun b hb => (hklwf b hb).1
  have hprewf : ∀ x ∈ pre, notFlag x = true := by
    intro x hx
    rw [hpre] at hx
    exact List.mem_takeWhile_imp hx
  rw [takeWhile_append_all (flatBlocks (keepLastBlocks bs)) hprewf,
    dropWhile_append_all (flatBlocks (keepLastBlocks bs)) hprewf]
  rw [takeWhile_flatBlocks_nil _ hklkeys, dropWhile_flatBlocks_self _ hklkeys]
  rw [toBlocks_flatBlocks _ hklwf]
  rw [keepLastBlocks_of_pairwise _ (keepLastBlocks_pairwise bs)]
  simp

/-- Tokens surviving deduplication are tokens of the input list. -/
theorem dedupTokens_mem {ts : List Str} {t : Str} (h : t ∈ dedupTokens ts) : t ∈ ts :=
  (dedupTokens_sublist ts).mem h

/-- The token sequence of the deduplicated string is exactly the surviving
token subsequence (single-space joining splits back losslessly). -/
theorem pySplit_deduplicate (s : Str) :
    pySplit (deduplicate_parameters s) = dedupTokens (pySplit s) := by
  unfold deduplicate_parameters
  apply pySplit_joinSpace
  intro t ht
  exact pySplit_tokens_wf s t (dedupTokens_mem ht)

/-- String-level idempotence of `deduplicate_parameters`. -/
theorem deduplicate_parameters_idem (s : Str) :
    deduplicate_parameters (deduplicate_parameters s) = deduplicate_parameters s := by
  conv_lhs => rw [deduplicate_parameters]
  rw [pySplit_deduplicate]
  rw [deduplicate_parameters]
  rw [dedupTokens_eq_spec (dedupTokens (pySplit s)), dedupTokens_eq_spec (pySplit s)]
  rw [dedupSpecTokens_idem]

theorem expandMacroFuel_zero (table : List (Str × Str)) (name : Str) (visited : List Str) :
    expandMacroFuel 0 table name visited = none := by
  rw [expandMacroFuel]

theorem expandMacroFuel_succ (fuel : Nat) (table : List (Str × Str)) (name : Str)
    (visited : List Str) :
    expandMacroFuel (fuel + 1) table name visited =
      if visited.contains name then some (Except.error name)
      else
        match lookupStr table name with
        | none => some (Except.ok (macroRef name))
        | some value =>
          match expandNested fuel table (name :: visited) (findMacros value) value with
          | none => none
          | some (Except.error e) => some (Except.error e)
          | some (Except.ok ev) => some (Except.ok (deduplicate_parameters ev)) := by
  rw [expandMacroFuel]

theorem expandNested_nil (fuel : Nat) (table : List (Str × Str)) (visited : List Str)
    (acc : Str) : expandNested fuel table visited [] acc = some (Except.ok acc) := by
  rw [expandNested]

theorem expandNested_cons (fuel : Nat) (table : List (Str × Str)) (visited : List Str)
    (m : Str) (ms : List Str) (acc : Str) :
    expandNested fuel table visited (m :: ms) acc =
      if (lookupStr table m).isSome then
        match expandMacroFuel fuel table m visited with
        | none => none
        | some (Except.error e) => some (Except.error e)
        | some (Except.ok mv) => expandNested fuel table visited ms (replaceAll acc (macroRef m) mv)
      else expandNested fuel table visited ms acc := by
  rw [expandNested]

/-- If the substitution loop raises, some processed (defined) reference's
expansion raises at the same fuel. -/
theorem expandNested_err_mem :
    ∀ (ms : List Str) (fuel : Nat) (table : List (Str × Str)) (visited : List Str)
      (acc : Str) (e : Str),
      expandNested fuel table visited ms acc = some (Except.error e) →
      ∃ m ∈ ms, (lookupStr table m).isSome = true ∧
        ∃ e2, expandMacroFuel fuel table m visited = some (Except.error e2) := by
  intro ms
  induction ms with
  | nil =>
    intro fuel table visited acc e h
    rw [expandNested_nil] at h
    simp at h
  | cons m ms ih =>
    intro fuel table visited acc e h
    rw [expandNested_cons] at h
    by_cases hm : (lookupStr table m).isSome = true
    · rw [if_pos hm] at h
      cases hexp : expandMacroFuel fuel table m visited with
      | none => rw [hexp] at h; simp at h
      | some r =>
        cases r with
        | error e2 =>
          exact ⟨m, by simp, hm, e2, hexp⟩
        | ok mv =>
          rw [hexp] at h
          obtain ⟨m2, hm2, hs, he2⟩ := ih fuel table visited _ e h
          exact ⟨m2, by simp [hm2], hs, he2⟩
    · rw [if_neg hm] at h
      obtain ⟨m2, hm2, hs, he2⟩ := ih fuel table visited acc e h
      exact ⟨m2, by simp [hm2], hs, he2⟩

/-- A raised circular-reference error always corresponds to a genuine cycle
along the resolution path. -/
theorem err_to_raises :
    ∀ (fuel : Nat) (table : List (Str × Str)) (name : Str) (visited : List Str) (e : Str),
      expandMacroFuel fuel table name visited = some (Except.error e) →
      Raises table name visited := by
  intro fuel
  induction fuel with
  | zero =>
    intro table name visited e h
    rw [expandMacroFuel_zero] at h
    simp at h
  | succ fuel ih =>
    intro table name visited e h
    rw [expandMacroFuel_succ] at h
    by_cases hv : visited.contains name = true
    · exact Raises.base (by simpa using hv)
    · rw [if_neg hv] at h
      cases hlook : lookupStr table name with
      | none => rw [hlook] at h; simp at h
      | some value =>
        rw [hlook] at h
        have h2 : (match expandNested fuel table (name :: visited) (findMacros value) value with
          | none => (none : Option (Except Str Str))
          | some (Except.error e) => some (Except.error e)
          | some (Except.ok ev) => some (Except.ok (deduplicate_parameters ev)))
            = some (Except.error e) := h
        cases hnest : expandNested fuel table (name :: visited) (findMacros value) value with
        | none => rw [hnest] at h2; simp at h2
        | some r =>
          cases r with
          | ok ev => rw [hnest] at h2; simp at h2
          | error e2 =>
            obtain ⟨m, hm, hs, e3, he3⟩ :=
              expandNested_err_mem (findMacros value) fuel table (name :: visited) value e2 hnest
            exact Raises.step (by simpa using hv) hlook hm hs (ih table m (name :: visited) e3 he3)

theorem lookup_some_mem_keys :
    ∀ (table : List (Str × Str)) (name v : Str),
      lookupStr table name = some v → name ∈ table.map Prod.fst := by
  intro table
  induction table with
  | nil => intro name v h; simp [lookupStr, List.lookup] at h
  | cons p table ih =>
    intro name v h
    rw [lookupStr, List.lookup_cons] at h
    split at h
    · rename_i hk
      have : p.1 = name := by simpa using (beq_iff_eq.mp hk).symm
      simp [this]
    · have := ih name v h
      simp [this]

theorem keysLeft_lt {table : List (Str × Str)} {name v : Str} {visited : List Str}
    (hl : lookupStr table name = some v) (hnv : name ∉ visited) :
    keysLeft table (name :: visited) < keysLeft table visited := by
  unfold keysLeft
  have hmem : name ∈ (table.map Prod.fst).toFinset \ visited.toFinset := by
    rw [Finset.mem_sdiff, List.mem_toFinset, List.mem_toFinset]
    exact ⟨lookup_some_mem_keys table name v hl, hnv⟩
  have hdiff : (table.map Prod.fst).toFinset \ (name :: visited).toFinset
      = ((table.map Prod.fst).toFinset \ visited.toFinset).erase name := by
    rw [List.toFinset_cons]
    ext x
    simp only [Finset.mem_sdiff, Finset.mem_insert, Finset.mem_erase, List.mem_toFinset]
    tauto
  rw [hdiff]
  have hcard := Finset.card_erase_of_mem hmem
  have hpos : 0 < ((table.map Prod.fst).toFinset \ visited.toFinset).card :=
    Finset.card_pos.mpr ⟨name, hmem⟩
  omega

theorem keysLeft_le_length (table : List (Str × Str)) (visited : List Str) :
    keysLeft table visited ≤ table.length := by
  unfold keysLeft
  have h1 : ((table.map Prod.fst).toFinset \ visited.toFinset).card
      ≤ (table.map Prod.fst).toFinset.card :=
    Finset.card_le_card (Finset.sdiff_subset)
  have h2 : (table.map Prod.fst).toFinset.card ≤ (table.map Prod.fst).length :=
    List.toFinset_card_le (table.map Prod.fst)
  simpa using le_trans h1 h2

/-- Fuel sufficiency: with more fuel than undiscovered table keys, neither the
expander nor its substitution loop can exhaust fuel. -/
theorem expand_not_none : ∀ (fuel : Nat),
    (∀ (table : List (Str × Str)) (name : Str) (visited : List Str),
      keysLeft table visited < fuel → expandMacroFuel fuel table name visited ≠ none)
    ∧ (∀ (table : List (Str × Str)) (visited : List Str) (ms : List Str) (acc : Str),
      keysLeft table visited < fuel → expandNested fuel table visited ms acc ≠ none) := by
  intro fuel
  induction fuel with
  | zero =>
    constructor
    · intro table name visited hk; omega
    · intro table visited ms acc hk; omega
  | succ fuel ih =>
    have hmain : ∀ (table : List (Str × Str)) (name : Str) (visited : List Str),
        keysLeft table visited < fuel + 1 → expandMacroFuel (fuel + 1) table name visited ≠ none := by
      intro table name visited hk
      rw [expandMacroFuel_succ]
      by_cases hv : visited.contains name = true
      · rw [if_pos hv]; simp
      · rw [if_neg hv]
        cases hlook : lookupStr table name with
        | none => simp
        | some value =>
          have hnv : name ∉ visited := by simpa using hv
          have hlt : keysLeft table (name :: visited) < fuel := by
            have := keysLeft_lt hlook hnv
            omega
          have hnest := ih.2 table (name :: visited) (findMacros value) value hlt
          show (match expandNested fuel table (name :: visited) (findMacros value) value with
            | none => (none : Option (Except Str Str))
            | some (Except.error e) => some (Except.error e)
            | some (Except.ok ev) => some (Except.ok (deduplicate_parameters ev))) ≠ none
          cases hres : expandNested fuel table (name :: visited) (findMacros value) value with
          | none => exact absurd hres hnest
          | some r =>
            cases r with
            | error e => simp
            | ok ev => simp
    refine ⟨hmain, ?_⟩
    intro table visited ms acc hk
    induction ms generalizing acc with
    | nil => rw [expandNested_nil]; simp
    | cons m ms ihm =>
      rw [expandNested_cons]
      by_cases hm : (lookupStr table m).isSome = true
      · rw [if_pos hm]
        cases hexp : expandMacroFuel (fuel + 1) table m visited with
        | none => exact absurd hexp (hmain table m visited hk)
        | some r =>
          cases r with
          | error e => simp
          | ok mv => exact ihm (replaceAll acc (macroRef m) mv)
      · rw [if_neg hm]
        exact ihm acc

/-- If some processed reference's expansion raises (and fuel never runs out),
the substitution loop raises. -/
theorem expandNested_err_of_mem :
    ∀ (ms : List Str) (fuel : Nat) (table : List (Str × Str)) (visited : List Str) (acc : Str),
      keysLeft table visited < fuel →
      (∃ m ∈ ms, (lookupStr table m).isSome = true ∧
        ∃ e, expandMacroFuel fuel table m visited = some (Except.error e)) →
      ∃ e, expandNested fuel table visited ms acc = some (Except.error e) := by
  intro ms
  induction ms with
  | nil =>
    intro fuel table visited acc _ h
    obtain ⟨m, hm, _⟩ := h
    simp at hm
  | cons m0 ms ih =>
    intro fuel table visited acc hk h
    rw [expandNested_cons]
    by_cases hm0 : (lookupStr table m0).isSome = true
    · rw [if_pos hm0]
      cases hexp : expandMacroFuel fuel table m0 visited with
      | none =>
        exact absurd hexp ((expand_not_none fuel).1 table m0 visited hk)
      | some r =>
        cases r with
        | error e => exact ⟨e, rfl⟩
        | ok mv =>
          apply ih fuel table visited (replaceAll acc (macroRef m0) mv) hk
          obtain ⟨m, hm, hs, e, he⟩ := h
          rw [List.mem_cons] at hm
          rcases hm with hm | hm
          · subst hm
            rw [hexp] at he
            simp at he
          · exact ⟨m, hm, hs, e, he⟩
    · rw [if_neg hm0]
      apply ih fuel table visited acc hk
      obtain ⟨m, hm, hs, e, he⟩ := h
      rw [List.mem_cons] at hm
      rcases hm with hm | hm
      · subst hm; exact absurd hs hm0
      · exact ⟨m, hm, hs, e, he⟩

/-- A cycle along the resolution path makes the expander raise (at sufficient
fuel). -/
theorem raises_to_err {table : List (Str × Str)} {name : Str} {visited : List Str}
    (h : Raises table name visited) :
    ∀ (fuel : Nat), keysLeft table visited < fuel →
      ∃ e, expandMacroFuel fuel table name visited = some (Except.error e) := by
  induction h with
  | base hmem =>
    intro fuel hk
    match fuel, hk with
    | fuel + 1, _ =>
      rw [expandMacroFuel_succ, if_pos (by simpa using hmem)]
      exact ⟨_, rfl⟩
  | step hnv hlook hm hs _ ih =>
    rename_i name' visited' v m _
    intro fuel hk
    match fuel, hk with
    | fuel + 1, hk =>
      rw [expandMacroFuel_succ, if_neg (by simpa using hnv), hlook]
      have hlt : keysLeft table (name' :: visited') < fuel := by
        have := keysLeft_lt hlook hnv
        omega
      have hnest := expandNested_err_of_mem (findMacros v) fuel table (name' :: visited') v hlt
        ⟨m, hm, hs, ih fuel hlt⟩
      obtain ⟨e, he⟩ := hnest
      refine ⟨e, ?_⟩
      show (match expandNested fuel table (name' :: visited') (findMacros v) v with
        | none => (none : Option (Except Str Str))
        | some (Except.error e) => some (Except.error e)
        | some (Except.ok ev) => some (Except.ok (deduplicate_parameters ev)))
          = some (Except.error e)
      rw [he]

/-- `expand_macro` raises a circular-reference error precisely when a
resolution path from `name` revisits a name already on the path. -/
theorem expand_error_iff_raises (table : List (Str × Str)) (name : Str) :
    (∃ e, expandMacroTop table name = some (Except.error e)) ↔ Raises table name [] := by
  constructor
  · rintro ⟨e, he⟩
    exact err_to_raises (table.length + 1) table name [] e he
  · intro h
    apply raises_to_err h
    have := keysLeft_le_length table []
    omega

/-- The expander always returns (fuel never runs out at the standard bound):
even a cyclic table yields a raised error, not divergence. -/
theorem expandMacroTop_ne_none (table : List (Str × Str)) (name : Str) :
    expandMacroTop table name ≠ none := by
  apply (expand_not_none (table.length + 1)).1
  have := keysLeft_le_length table []
  omega

/-- On tables acyclic from `name`, the expander returns a string. -/
theorem expandMacroTop_ok_of_not_raises {table : List (Str × Str)} {name : Str}
    (h : ¬ Raises table name []) : ∃ s, expandMacroTop table name = some (Except.ok s) := by
  cases hres : expandMacroTop table name with
  | none => exact absurd hres (expandMacroTop_ne_none table name)
  | some r =>
    cases r with
    | error e => exact absurd ((expand_error_iff_raises table name).mp ⟨e, hres⟩) h
    | ok s => exact ⟨s, rfl⟩

theorem extractUsedWith_keys (order : List Str) (table : List (Str × Str)) :
    (extractUsedWith order table).map Prod.fst
      = order.filter (fun m => (lookupStr table m).isSome) := by
  induction order with
  | nil => simp [extractUsedWith]
  | cons m ms ih =>
    rw [extractUsedWith, List.filter_cons]
    by_cases hm : (lookupStr table m).isSome = true
    · rw [if_pos hm, if_pos hm, List.map_cons, ih]
    · rw [if_neg hm, if_neg hm, ih]

theorem extractUsedWith_lookup :
    ∀ (order : List Str) (table : List (Str × Str)) (m : Str),
      m ∈ order → (lookupStr table m).isSome = true →
      List.lookup m (extractUsedWith order table) = some (resolveUsed table m) := by
  intro order
  induction order with
  | nil => intro table m hm _; simp at hm
  | cons m0 ms ih =>
    intro table m hm hs
    rw [extractUsedWith]
    rw [List.mem_cons] at hm
    by_cases heq : m = m0
    · subst heq
      rw [if_pos hs, List.lookup_cons]
      simp
    · rcases hm with hm | hm
      · exact absurd hm heq
      · by_cases h0 : (lookupStr table m0).isSome = true
        · rw [if_pos h0, List.lookup_cons]
          have hne : (m == m0) = false := by
            simp only [beq_eq_false_iff_ne]
            exact heq
          rw [hne]
          exact ih table m hm hs
        · rw [if_neg h0]
          exact ih table m hm hs

theorem dedupFirstAux_nodup : ∀ (l seen : List Str),
    (dedupFirstAux seen l).Nodup ∧ ∀ x ∈ dedupFirstAux seen l, x ∉ seen := by
  intro l
  induction l with
  | nil => intro seen; simp [dedupFirstAux]
  | cons x xs ih =>
    intro seen
    rw [dedupFirstAux]
    by_cases hx : seen.contains x = true
    · rw [if_pos hx]
      exact ih seen
    · rw [if_neg hx]
      obtain ⟨hnd, hns⟩ := ih (x :: seen)
      refine ⟨List.Nodup.cons ?_ hnd, ?_⟩
      · intro hc
        exact hns x hc (by simp)
      · intro y hy
        rw [List.mem_cons] at hy
        rcases hy with hy | hy
        · subst hy; simpa using hx
        · intro hc
          exact hns y hy (by simp [hc])

theorem dedupFirst_nodup (l : List Str) : (dedupFirst l).Nodup :=
  (dedupFirstAux_nodup l []).1

theorem dedupFirstAux_mem : ∀ (l seen : List Str) (x : Str),
    x ∈ dedupFirstAux seen l ↔ (x ∈ l ∧ x ∉ seen) := by
  intro l
  induction l with
  | nil => intro seen x; simp [dedupFirstAux]
  | cons y ys ih =>
    intro seen x
    rw [dedupFirstAux]
    by_cases hy : seen.contains y = true
    · rw [if_pos hy, ih]
      have hym : y ∈ seen := by simpa using hy
      constructor
      · rintro ⟨h1, h2⟩; exact ⟨by simp [h1], h2⟩
      · rintro ⟨h1, h2⟩
        rw [List.mem_cons] at h1
        rcases h1 with h1 | h1
        · subst h1; exact absurd hym h2
        · exact ⟨h1, h2⟩
    · rw [if_neg hy, List.mem_cons, ih]
      have hym : y ∉ seen := by simpa using hy
      constructor
      · rintro (h | ⟨h1, h2⟩)
        · subst h; exact ⟨by simp, hym⟩
        · refine ⟨by simp [h1], fun hc => h2 (by simp [hc])⟩
      · rintro ⟨h1, h2⟩
        rw [List.mem_cons] at h1
        rcases h1 with h1 | h1
        · exact Or.inl h1
        · by_cases hxy : x = y
          · exact Or.inl hxy
          · exact Or.inr ⟨h1, fun hc => by
              rw [List.mem_cons] at hc
              rcases hc with hc | hc
              · exact hxy hc
              · exact h2 hc⟩

theorem dedupFirst_mem (l : List Str) (x : Str) : x ∈ dedupFirst l ↔ x ∈ l := by
  rw [dedupFirst, dedupFirstAux_mem]
  simp

theorem checkMembers_nil (gid : Str) (models : List (Str × PyModelConfig))
    (seen : List Str) (undef : List (Str × Str)) :
    checkMembers gid models [] seen undef = Except.ok (seen, undef) := by
  rw [checkMembers]

theorem checkMembers_cons (gid : Str) (models : List (Str × PyModelConfig))
    (mem : Str) (rest seen : List Str) (undef : List (Str × Str)) :
    checkMembers gid models (mem :: rest) seen undef =
      if seen.contains mem then Except.error (VErr.multiGroup mem)
      else checkMembers gid models rest (seen ++ [mem])
        (if (List.lookup mem models).isSome then undef else undef ++ [(gid, mem)]) := by
  rw [checkMembers]

theorem checkMembers_no_dup (gid : Str) (models : List (Str × PyModelConfig)) :
    ∀ (mems seen : List Str) (undef : List (Str × Str)),
      mems.Nodup → (∀ x ∈ mems, x ∉ seen) →
      checkMembers gid models mems seen undef
        = Except.ok (seen ++ mems,
            undef ++ (mems.filter (fun mem => ¬ (List.lookup mem models).isSome)).map
              (fun mem => (gid, mem))) := by
  intro mems
  induction mems with
  | nil =>
    intro seen undef _ _
    rw [checkMembers_nil, List.filter_nil, List.map_nil, List.append_nil, List.append_nil]
  | cons mem rest ih =>
    intro seen undef hnd hdisj
    rw [checkMembers_cons]
    have hnotseen : seen.contains mem = false := by
      have := hdisj mem (by simp)
      simpa using this
    rw [hnotseen]
    simp only [Bool.false_eq_true, if_false]
    rw [List.nodup_cons] at hnd
    have hdisj2 : ∀ x ∈ rest, x ∉ seen ++ [mem] := by
      intro x hx
      rw [List.mem_append]
      rintro (hc | hc)
      · exact hdisj x (by simp [hx]) hc
      · rw [List.mem_singleton] at hc
        subst hc
        exact hnd.1 hx
    rw [List.filter_cons]
    by_cases hmem : (List.lookup mem models).isSome = true
    · rw [if_pos hmem]
      have hd : (decide ¬(List.lookup mem models).isSome = true) = false := by simp [hmem]
      rw [hd]
      simp only [Bool.false_eq_true, if_false]
      rw [ih (seen ++ [mem]) undef hnd.2 hdisj2]
      simp only [List.append_assoc, List.singleton_append, List.nil_append]
    · rw [if_neg hmem]
      have hd : (decide ¬(List.lookup mem models).isSome = true) = true := by
        rw [decide_eq_true_iff]
        exact hmem
      rw [hd]
      simp only [if_true]
      rw [ih (seen ++ [mem]) (undef ++ [(gid, mem)]) hnd.2 hdisj2]
      simp only [List.append_assoc, List.singleton_append, List.cons_append, List.map_cons,
        List.nil_append]

theorem checkGroups_nil (models : List (Str × PyModelConfig)) (seen : List Str)
    (undef : List (Str × Str)) :
    checkGroups models [] seen undef = Except.ok undef := by
  rw [checkGroups]

theorem checkGroups_cons (models : List (Str × PyModelConfig)) (gid : Str)
    (g : PyGroupConfig) (rest : List (Str × PyGroupConfig)) (seen : List Str)
    (undef : List (Str × Str)) :
    checkGroups models ((gid, g) :: rest) seen undef =
      match checkMembers gid models g.members seen undef with
      | Except.error e => Except.error e
      | Except.ok (seen2, undef2) => checkGroups models rest seen2 undef2 := by
  rw [checkGroups]

/-- When no model id occurs twice across the scanned membership lists, the
group check collects every undefined-member violation. -/
theorem checkGroups_no_dup (models : List (Str × PyModelConfig)) :
    ∀ (gs : List (Str × PyGroupConfig)) (seen : List Str) (undef : List (Str × Str)),
      (gs.flatMap (fun p => p.2.members)).Nodup →
      (∀ x ∈ gs.flatMap (fun p => p.2.members), x ∉ seen) →
      checkGroups models gs seen undef
        = Except.ok (undef ++ gs.flatMap (fun p =>
            (p.2.members.filter (fun mem => ¬ (List.lookup mem models).isSome)).map
              (fun mem => (p.1, mem)))) := by
  intro gs
  induction gs with
  | nil =>
    intro seen undef _ _
    rw [checkGroups_nil, List.flatMap_nil, List.append_nil]
  | cons p rest ih =>
    intro seen undef hnd hdisj
    obtain ⟨gid, g⟩ := p
    rw [checkGroups_cons]
    rw [List.flatMap_cons] at hnd hdisj
    have hgnd : g.members.Nodup := (List.nodup_append.mp hnd).1
    have hgdisj : ∀ x ∈ g.members, x ∉ seen := by
      intro x hx
      exact hdisj x (by rw [List.mem_append]; exact Or.inl hx)
    rw [checkMembers_no_dup gid models g.members seen undef hgnd hgdisj]
    have hrnd : (rest.flatMap (fun p => p.2.members)).Nodup := (List.nodup_append.mp hnd).2.1
    have hrdisj : ∀ x ∈ rest.flatMap (fun p => p.2.members), x ∉ seen ++ g.members := by
      intro x hx
      rw [List.mem_append]
      rintro (hc | hc)
      · exact hdisj x (by rw [List.mem_append]; exact Or.inr hx) hc
      · exact (List.nodup_append.mp hnd).2.2 hc hx
    show checkGroups models rest (seen ++ g.members)
        (undef ++ List.map (fun mem => (gid, mem))
          (List.filter (fun mem => decide ¬(List.lookup mem models).isSome = true) g.members))
      = _
    rw [ih (seen ++ g.members) _ hrnd hrdisj]
    rw [List.flatMap_cons, List.append_assoc]

/-- With no model in two groups and the alias pass clean, the consistency
validator reports exactly the full undefined-member list (as one combined
error). -/
theorem consistency_undefined_full (doc : PyDoc) (am : List (Str × Str))
    (hAlias : buildAliasMap doc.models [] = Except.ok am)
    (hnd : (doc.groups.flatMap (fun p => p.2.members)).Nodup)
    (hundef : specUndefinedMembers doc ≠ []) :
    validate_config_consistency doc
      = Except.error (VErr.undefinedMembers (specUndefinedMembers doc)) := by
  have hgroups : checkGroups doc.models doc.groups [] []
      = Except.ok (specUndefinedMembers doc) := by
    rw [checkGroups_no_dup doc.models doc.groups [] [] hnd (by intro x _ hc; simp at hc)]
    rw [List.nil_append]
    rfl
  have hne : doc.groups.isEmpty = false := by
    cases hg : doc.groups with
    | nil =>
      exfalso
      apply hundef
      rw [specUndefinedMembers, hg]
      rfl
    | cons a l => simp
  rw [validate_config_consistency]
  simp only [bind, Except.bind, hAlias, hne, Bool.false_eq_true, if_false, hgroups]
  have hnem : (specUndefinedMembers doc).isEmpty = false := by
    cases h : specUndefinedMembers doc with
    | nil => exact absurd h hundef
    | cons a l => simp
  rw [hnem]
  simp

theorem checkFields_ok_clean (macros : List (Str × Str)) (mid : Str) :
    ∀ (fields : List (Str × Str)), checkFields macros mid fields = Except.ok () →
      ∀ p ∈ fields, containsSub p.2 nestedLit = false := by
  intro fields
  induction fields with
  | nil => intro _ p hp; simp at hp
  | cons fp rest ih =>
    intro h p hp
    obtain ⟨fname, fval⟩ := fp
    rw [checkFields] at h
    by_cases hnest : containsSub fval nestedLit = true
    · rw [if_pos hnest] at h
      simp at h
    · rw [if_neg hnest] at h
      rw [List.mem_cons] at hp
      rcases hp with hp | hp
      · subst hp
        simpa using hnest
      · cases hfind : (findMacrosV fval).find?
            (fun n => !reservedNames.contains n && !(List.lookup n macros).isSome) with
        | some n => rw [hfind] at h; simp at h
        | none =>
          rw [hfind] at h
          exact ih h p hp

theorem checkModelMacroFields_ok_clean (macros : List (Str × Str)) :
    ∀ (models : List (Str × PyModelConfig)),
      checkModelMacroFields macros models = Except.ok () →
      ∀ pm ∈ models, ∀ p ∈ consistencyFields pm.2, containsSub p.2 nestedLit = false := by
  intro models
  induction models with
  | nil => intro _ pm hpm; simp at hpm
  | cons q rest ih =>
    intro h pm hpm
    obtain ⟨mid, m⟩ := q
    rw [checkModelMacroFields] at h
    cases hf : checkFields macros mid (consistencyFields m) with
    | error e => rw [hf] at h; simp at h
    | ok u =>
      rw [hf] at h
      rw [List.mem_cons] at hpm
      rcases hpm with hpm | hpm
      · subst hpm
        exact checkFields_ok_clean macros mid (consistencyFields m) (by rw [hf]) 
      · exact ih h pm hpm

/-- Inversion: a successful consistency run with a nonempty macro table means
the macro usage check ran and succeeded. -/
theorem consistency_ok_macro_check (doc : PyDoc) (am : List (Str × Str))
    (h : validate_config_consistency doc = Except.ok am)
    (hm : doc.macros.isEmpty = false) :
    checkModelMacroFields doc.macros doc.models = Except.ok () := by
  rw [validate_config_consistency] at h
  simp only [bind, Except.bind] at h
  cases hA : buildAliasMap doc.models [] with
  | error e => simp only [hA] at h; exact absurd h (by simp)
  | ok am2 =>
    simp only [hA] at h
    cases hG : (if doc.groups.isEmpty then Except.ok ()
      else
        match checkGroups doc.models doc.groups [] [] with
        | Except.error e => Except.error e
        | Except.ok undef =>
          if undef.isEmpty then Except.ok ()
          else Except.error (VErr.undefinedMembers undef)) with
    | error e => simp only [hG] at h; exact absurd h (by simp)
    | ok u =>
      simp only [hG] at h
      cases hP : checkPreload doc.models am2 doc.preload with
      | error e => simp only [hP] at h; exact absurd h (by simp)
      | ok u2 =>
        simp only [hP, hm, Bool.false_eq_true, if_false] at h
        cases hM : checkModelMacroFields doc.macros doc.models with
        | error e => simp only [hM] at h; exact absurd h (by simp)
        | ok u3 => rfl

theorem addAliases_err_shape (mid : Str) :
    ∀ (l : List Str) (acc : List (Str × Str)) (e : VErr),
      addAliases mid l acc = Except.error e → ∃ a o m2, e = VErr.dupAlias a o m2 := by
  intro l
  induction l with
  | nil => intro acc e h; rw [addAliases] at h; simp at h
  | cons a rest ih =>
    intro acc e h
    rw [addAliases] at h
    cases hl : List.lookup a acc with
    | some owner =>
      rw [hl] at h
      simp only [Except.error.injEq] at h
      exact ⟨a, owner, mid, h.symm⟩
    | none =>
      rw [hl] at h
      exact ih _ e h

theorem buildAliasMap_err_shape :
    ∀ (models : List (Str × PyModelConfig)) (acc : List (Str × Str)) (e : VErr),
      buildAliasMap models acc = Except.error e → ∃ a o m2, e = VErr.dupAlias a o m2 := by
  intro models
  induction models with
  | nil => intro acc e h; rw [buildAliasMap] at h; simp at h
  | cons q rest ih =>
    intro acc e h
    obtain ⟨mid, m⟩ := q
    rw [buildAliasMap] at h
    cases ha : addAliases mid m.aliases acc with
    | error e2 =>
      rw [ha] at h
      simp only [Except.error.injEq] at h
      subst h
      exact addAliases_err_shape mid m.aliases acc e2 ha
    | ok acc2 =>
      rw [ha] at h
      exact ih acc2 e h

theorem checkMembers_err_shape (gid : Str) (models : List (Str × PyModelConfig)) :
    ∀ (mems seen : List Str) (undef : List (Str × Str)) (e : VErr),
      checkMembers gid models mems seen undef = Except.error e → ∃ m2, e = VErr.multiGroup m2 := by
  intro mems
  induction mems with
  | nil => intro seen undef e h; rw [checkMembers_nil] at h; simp at h
  | cons mem rest ih =>
    intro seen undef e h
    rw [checkMembers_cons] at h
    by_cases hs : seen.contains mem = true
    · rw [if_pos hs] at h
      simp only [Except.error.injEq] at h
      exact ⟨mem, h.symm⟩
    · rw [if_neg hs] at h
      exact ih _ _ e h

theorem checkGroups_err_shape (models : List (Str × PyModelConfig)) :
    ∀ (gs : List (Str × PyGroupConfig)) (seen : List Str) (undef : List (Str × Str)) (e : VErr),
      checkGroups models gs seen undef = Except.error e → ∃ m2, e = VErr.multiGroup m2 := by
  intro gs
  induction gs with
  | nil => intro seen undef e h; rw [checkGroups_nil] at h; simp at h
  | cons p rest ih =>
    intro seen undef e h
    obtain ⟨gid, g⟩ := p
    rw [checkGroups_cons] at h
    cases hc : checkMembers gid models g.members seen undef with
    | error e2 =>
      rw [hc] at h
      simp only [Except.error.injEq] at h
      subst h
      exact checkMembers_err_shape gid models g.members seen undef e2 hc
    | ok pr =>
      rw [hc] at h
      obtain ⟨seen2, undef2⟩ := pr
      exact ih seen2 undef2 e h

theorem checkPreload_err_shape (models : List (Str × PyModelConfig)) (am : List (Str × Str)) :
    ∀ (l : List Str) (e : VErr),
      checkPreload models am l = Except.error e → ∃ m2, e = VErr.unknownPreload m2 := by
  intro l
  induction l with
  | nil => intro e h; rw [checkPreload] at h; simp at h
  | cons p rest ih =>
    intro e h
    rw [checkPreload] at h
    split at h
    · simp only [Except.error.injEq] at h
      exact ⟨p, h.symm⟩
    · exact ih e h

theorem checkFields_nested_sound (macros : List (Str × Str)) (mid : Str) :
    ∀ (fields : List (Str × Str)) (mid2 fn : Str),
      checkFields macros mid fields = Except.error (VErr.nestedMacroLit mid2 fn) →
      mid2 = mid ∧ ∃ fv, (fn, fv) ∈ fields ∧ containsSub fv nestedLit = true := by
  intro fields
  induction fields with
  | nil => intro mid2 fn h; rw [checkFields] at h; simp at h
  | cons fp rest ih =>
    intro mid2 fn h
    obtain ⟨fname, fval⟩ := fp
    rw [checkFields] at h
    by_cases hnest : containsSub fval nestedLit = true
    · rw [if_pos hnest] at h
      simp only [Except.error.injEq, VErr.nestedMacroLit.injEq] at h
      exact ⟨h.1.symm, fval, by rw [h.2]; simp, hnest⟩
    · rw [if_neg hnest] at h
      cases hfind : (findMacrosV fval).find?
          (fun n => !reservedNames.contains n && !(List.lookup n macros).isSome) with
      | some n => rw [hfind] at h; simp at h
      | none =>
        rw [hfind] at h
        obtain ⟨hm, fv, hmem, hc⟩ := ih mid2 fn h
        exact ⟨hm, fv, by simp [hmem], hc⟩

theorem checkModelMacroFields_nested_sound (macros : List (Str × Str)) :
    ∀ (models : List (Str × PyModelConfig)) (mid fn : Str),
      checkModelMacroFields macros models = Except.error (VErr.nestedMacroLit mid fn) →
      ∃ m, (mid, m) ∈ models ∧ ∃ fv, (fn, fv) ∈ consistencyFields m ∧
        containsSub fv nestedLit = true := by
  intro models
  induction models with
  | nil => intro mid fn h; rw [checkModelMacroFields] at h; simp at h
  | cons q rest ih =>
    intro mid fn h
    obtain ⟨mid0, m0⟩ := q
    rw [checkModelMacroFields] at h
    cases hf : checkFields macros mid0 (consistencyFields m0) with
    | error e =>
      rw [hf] at h
      simp only [Except.error.injEq] at h
      subst h
      obtain ⟨hm, fv, hmem, hc⟩ := checkFields_nested_sound macros mid0 _ mid fn hf
      subst hm
      exact ⟨m0, by simp, fv, hmem, hc⟩
    | ok u =>
      rw [hf] at h
      obtain ⟨m, hm, fv, hmem, hc⟩ := ih mid fn h
      exact ⟨m, by simp [hm], fv, hmem, hc⟩

/-- With at least one macro declared, a document containing the nested
literal in any checked model field never passes consistency validation. -/
theorem consistency_rejects_nested (doc : PyDoc) (mid : Str) (m : PyModelConfig)
    (p : Str × Str) (hm : doc.macros.isEmpty = false) (hmem : (mid, m) ∈ doc.models)
    (hp : p ∈ consistencyFields m) (hnest : containsSub p.2 nestedLit = true) :
    ∃ e, validate_config_consistency doc = Except.error e := by
  cases hres : validate_config_consistency doc with
  | error e => exact ⟨e, rfl⟩
  | ok am =>
    exfalso
    have hM := consistency_ok_macro_check doc am hres hm
    have := checkModelMacroFields_ok_clean doc.macros doc.models hM (mid, m) hmem p hp
    rw [hnest] at this
    exact absurd this (by simp)

/-- A nested-literal error reported by consistency validation always names a
model and field whose value genuinely contains the literal `${${`. -/
theorem consistency_nested_sound (doc : PyDoc) (mid fn : Str)
    (h : validate_config_consistency doc = Except.error (VErr.nestedMacroLit mid fn)) :
    ∃ m, (mid, m) ∈ doc.models ∧ ∃ fv, (fn, fv) ∈ consistencyFields m ∧
      containsSub fv nestedLit = true := by
  rw [validate_config_consistency] at h
  simp only [bind, Except.bind] at h
  cases hA : buildAliasMap doc.models [] with
  | error e =>
    simp only [hA] at h
    simp only [Except.error.injEq] at h
    obtain ⟨a, o, m2, hsh⟩ := buildAliasMap_err_shape doc.models [] e hA
    rw [h] at hsh
    simp at hsh
  | ok am2 =>
    simp only [hA] at h
    cases hG : (if doc.groups.isEmpty then Except.ok ()
      else
        match checkGroups doc.models doc.groups [] [] with
        | Except.error e => Except.error e
        | Except.ok undef =>
          if undef.isEmpty then Except.ok ()
          else Except.error (VErr.undefinedMembers undef)) with
    | error e =>
      simp only [hG] at h
      simp only [Except.error.injEq] at h
      subst h
      exfalso
      by_cases hge : doc.groups.isEmpty = true
      · rw [if_pos hge] at hG; simp at hG
      · rw [if_neg hge] at hG
        cases hgr : checkGroups doc.models doc.groups [] [] with
        | error e2 =>
          simp only [hgr] at hG
          simp only [Except.error.injEq] at hG
          subst hG
          obtain ⟨m2, hsh⟩ := checkGroups_err_shape doc.models doc.groups [] [] _ hgr
          simp at hsh
        | ok undef =>
          simp only [hgr] at hG
          by_cases hu : undef.isEmpty = true
          · rw [if_pos hu] at hG; simp at hG
          · rw [if_neg hu] at hG
            simp at hG
    | ok u =>
      simp only [hG] at h
      cases hP : checkPreload doc.models am2 doc.preload with
      | error e =>
        simp only [hP] at h
        simp only [Except.error.injEq] at h
        subst h
        obtain ⟨m2, hsh⟩ := checkPreload_err_shape doc.models am2 doc.preload _ hP
        simp at hsh
      | ok u2 =>
        simp only [hP] at h
        by_cases hme : doc.macros.isEmpty = true
        · rw [if_pos hme] at h
          simp at h
        · rw [if_neg hme] at h
          cases hM : checkModelMacroFields doc.macros doc.models with
          | error e =>
            simp only [hM] at h
            simp only [Except.error.injEq] at h
            subst h
            exact checkModelMacroFields_nested_sound doc.macros doc.models mid fn hM
          | ok u3 =>
            simp only [hM] at h
            simp at h

theorem addError_coherent (r : ValidationResult) (e : VErr) :
    ReportCoherent (addError r e) := by
  unfold ReportCoherent addError
  simp

theorem foldl_addError_coherent {α : Type} (step : ValidationResult → α → ValidationResult)
    (hstep : ∀ r x, step r x = r ∨ ∃ e, step r x = addError r e) :
    ∀ (l : List α) (r : ValidationResult), ReportCoherent r → ReportCoherent (l.foldl step r) := by
  intro l
  induction l with
  | nil => intro r hr; simpa using hr
  | cons x xs ih =>
    intro r hr
    rw [List.foldl_cons]
    rcases hstep r x with h | ⟨e, h⟩
    · rw [h]; exact ih r hr
    · rw [h]; exact ih _ (addError_coherent r e)

theorem validatePortConsistency_coherent (doc : PyDoc) (r : ValidationResult)
    (hr : ReportCoherent r) : ReportCoherent (validatePortConsistency doc r) := by
  unfold validatePortConsistency
  apply foldl_addError_coherent
  · intro r2 p
    split
    · exact Or.inr ⟨_, rfl⟩
    · exact Or.inl rfl
  · exact hr

theorem validateCircularMacroRefs_coherent (doc : PyDoc) (r : ValidationResult)
    (hr : ReportCoherent r) : ReportCoherent (validateCircularMacroRefs doc r) := by
  unfold validateCircularMacroRefs
  split
  · exact hr
  · apply foldl_addError_coherent
    · intro r2 p
      split
      · exact Or.inr ⟨_, rfl⟩
      · exact Or.inl rfl
    · exact hr

theorem validate_with_pydantic_coherent (doc : PyDoc) :
    ReportCoherent (validate_with_pydantic doc) := by
  unfold validate_with_pydantic
  cases hp : pydanticErrors doc with
  | some errs =>
    have herrs : errs ≠ [] := by
      rw [pydanticErrors] at hp
      by_cases hf : (fieldErrors doc).isEmpty
      · rw [if_neg (by simpa using hf)] at hp
        cases hc : validate_config_consistency doc with
        | error e => rw [hc] at hp; simp at hp; rw [← hp]; simp
        | ok am => rw [hc] at hp; simp at hp
      · rw [if_pos (by simpa using hf)] at hp
        simp only [Option.some.injEq] at hp
        rw [← hp]
        intro hc
        rw [hc] at hf
        simp at hf
    unfold ReportCoherent
    simp [herrs]
  | none =>
    apply validateCircularMacroRefs_coherent
    apply validatePortConsistency_coherent
    unfold ReportCoherent
    simp

theorem validate_yaml_string_coherent (root : YamlRoot) :
    ReportCoherent (validate_yaml_string root) := by
  cases root with
  | isNull => unfold ReportCoherent validate_yaml_string; simp
  | notMapping => unfold ReportCoherent validate_yaml_string; simp
  | mapping doc => exact validate_with_pydantic_coherent doc

/-- The report produced when phase-1 passes and consistency raises. -/
theorem report_of_consistency_error (doc : PyDoc) (e : VErr)
    (hf : fieldErrors doc = [])
    (hc : validate_config_consistency doc = Except.error e) :
    validate_with_pydantic doc
      = { is_valid := false, errors := [e], warnings := [] } := by
  unfold validate_with_pydantic pydanticErrors
  rw [hf, hc]
  simp

/-- A consistency error always invalidates the document's report. -/
theorem invalid_of_consistency_error (doc : PyDoc) (e : VErr)
    (hc : validate_config_consistency doc = Except.error e) :
    (validate_with_pydantic doc).is_valid = false := by
  unfold validate_with_pydantic pydanticErrors
  by_cases hf : (fieldErrors doc).isEmpty
  · rw [if_neg (by simpa using hf), hc]
  · rw [if_pos (by simpa using hf)]

/-- C1: Expanding the macro `combined` over the table
`{"first": "--ctx-size 32768", "second": "--ctx-size 65536",
"combined": "${first} ${second}"}` yields exactly `"--ctx-size 65536"`; and in
general deduplication keeps, for every flag token, only its rightmost
occurrence together with that occurrence's contiguous non-flag value tokens
(leading non-flag tokens are retained), preserving the positional order of
the surviving tokens (`dedupSpecTokens`). -/
theorem claim_c1 :
    expandMacroTop c1table "combined".data = some (Except.ok "--ctx-size 65536".data)
    ∧ ∀ ts : List Str, dedupTokens ts = dedupSpecTokens ts := by
  constructor
  · simp +decide [c1table, expandMacroTop, expandMacroFuel, expandNested, findMacros, replaceAll,
      lookupStr, deduplicate_parameters, dedupTokens, scanAux, includedIdx, lastOcc, joinSpace,
      pySplit, pyIsSpace, isFlag, notFlag, macroRef, lbrace, rbrace, incPs, String.data,
      List.lookup]
  · exact dedupTokens_eq_spec

/-- C2: `expand_macro` raises a circular-reference error (carrying a macro
name) if and only if some resolution path revisits a name already on that
path (`Raises`); the mutual cycle `{"a": "${b}", "b": "${a}"}` raises (naming
the revisited macro `a`), while a diamond-shaped dependency graph expands
without error. -/
theorem claim_c2 :
    (∀ (table : List (Str × Str)) (name : Str),
      (∃ e, expandMacroTop table name = some (Except.error e)) ↔ Raises table name [])
    ∧ expandMacroTop c2cycleTable "a".data = some (Except.error "a".data)
    ∧ expandMacroTop c2diamondTable "top".data = some (Except.ok "--x 1".data) := by
  refine ⟨expand_error_iff_raises, ?_, ?_⟩
  · simp +decide [c2cycleTable, expandMacroTop, expandMacroFuel, expandNested, findMacros,
      replaceAll, lookupStr, deduplicate_parameters, dedupTokens, scanAux, includedIdx, lastOcc,
      joinSpace, pySplit, pyIsSpace, isFlag, notFlag, macroRef, lbrace, rbrace, incPs,
      String.data, List.lookup]
  · simp +decide [c2diamondTable, expandMacroTop, expandMacroFuel, expandNested, findMacros,
      replaceAll, lookupStr, deduplicate_parameters, dedupTokens, scanAux, includedIdx, lastOcc,
      joinSpace, pySplit, pyIsSpace, isFlag, notFlag, macroRef, lbrace, rbrace, incPs,
      String.data, List.lookup]

/-- C7: for every macro table acyclic from `name` (no resolution path
revisits a name), `expand_macro` terminates with a string result — the
fuel-free model never exhausts its bound — and, being a pure function of its
arguments, returns the same string on repeated calls. -/
theorem claim_c7 (table : List (Str × Str)) (name : Str) (h : ¬ Raises table name []) :
    (∃ s, expandMacroTop table name = some (Except.ok s))
    ∧ ∀ r1 r2 : Option (Except Str Str),
        expandMacroTop table name = r1 → expandMacroTop table name = r2 → r1 = r2 := by
  refine ⟨expandMacroTop_ok_of_not_raises h, ?_⟩
  intro r1 r2 h1 h2
  rw [← h1, ← h2]

/-- Witness for C7 at the acyclic table `{"x": "--a 1"}`. -/
theorem claim_c7_witness :
    (∃ s, expandMacroTop [("x".data, "--a 1".data)] "x".data = some (Except.ok s))
    ∧ ∀ r1 r2 : Option (Except Str Str),
        expandMacroTop [("x".data, "--a 1".data)] "x".data = r1 →
        expandMacroTop [("x".data, "--a 1".data)] "x".data = r2 → r1 = r2 := by
  have hok : expandMacroTop [("x".data, "--a 1".data)] "x".data
      = some (Except.ok "--a 1".data) := by
    simp +decide [expandMacroTop, expandMacroFuel, expandNested, findMacros, replaceAll,
      lookupStr, deduplicate_parameters, dedupTokens, scanAux, includedIdx, lastOcc, joinSpace,
      pySplit, pyIsSpace, isFlag, notFlag, macroRef, lbrace, rbrace, incPs, String.data,
      List.lookup]
  apply claim_c7
  intro hr
  obtain ⟨e, he⟩ := (expand_error_iff_raises [("x".data, "--a 1".data)] "x".data).mpr hr
  rw [hok] at he
  simp at he

/-- C8: parameter deduplication is idempotent on every input string. -/
theorem claim_c8 :
    ∀ s : Str, deduplicate_parameters (deduplicate_parameters s) = deduplicate_parameters s :=
  deduplicate_parameters_idem

/-- C10: the token sequence of `deduplicate_parameters s` is a subsequence of
`s.split()` (no reordering, no invented tokens, no duplicated positions), and
the output is exactly those surviving tokens joined by single spaces (all
whitespace runs normalized). -/
theorem claim_c10 :
    ∀ s : Str, (pySplit (deduplicate_parameters s)).Sublist (pySplit s)
      ∧ deduplicate_parameters s = joinSpace (pySplit (deduplicate_parameters s)) := by
  intro s
  constructor
  · rw [pySplit_deduplicate]
    exact dedupTokens_sublist (pySplit s)
  · rw [pySplit_deduplicate]
    rfl

/-- C5: the usage extractor never lets a circular-reference error escape: for
every command list, table and set iteration order, a discovered table-defined
name whose expansion raises is mapped to its raw (unexpanded) table value,
and a warning is emitted for it; in particular commands referencing
`circular` over `{"circular": "${circular}"}` yield the mapping
`circular ↦ "${circular}"`.  (The model is a total function: no exception
propagates.) -/
theorem claim_c5 :
    (∀ (commands : List Str) (table : List (Str × Str)) (order : List Str) (m raw : Str),
      IsSetOrder order commands → lookupStr table m = some raw → m ∈ order →
      resolveWarns table m = true →
      List.lookup m (extractUsedWith order table) = some raw
        ∧ m ∈ extractWarnings order table)
    ∧ extractUsedWith (dedupFirst (discoveredRefs ["command ${circular}".data]))
        [("circular".data, "${circular}".data)]
      = [("circular".data, "${circular}".data)] := by
  constructor
  · intro commands table order m raw _ hlook hmem hwarn
    have hs : (lookupStr table m).isSome = true := by rw [hlook]; rfl
    constructor
    · rw [extractUsedWith_lookup order table m hmem hs]
      have : resolveUsed table m = raw := by
        unfold resolveUsed
        unfold resolveWarns at hwarn
        cases hexp : expandMacroTop table m with
        | none => rw [hexp] at hwarn; simp at hwarn
        | some r =>
          cases r with
          | ok v => rw [hexp] at hwarn; simp at hwarn
          | error e => rw [hlook]; rfl
      rw [this]
    · unfold extractWarnings
      rw [List.mem_filter]
      exact ⟨hmem, by rw [hs, hwarn]; rfl⟩
  · simp +decide [discoveredRefs, dedupFirst, dedupFirstAux, extractUsedWith, resolveUsed,
      expandMacroTop, expandMacroFuel, expandNested, findMacros, replaceAll, lookupStr,
      deduplicate_parameters, dedupTokens, scanAux, includedIdx, lastOcc, joinSpace, pySplit,
      pyIsSpace, isFlag, notFlag, macroRef, lbrace, rbrace, incPs, String.data, List.lookup]

/-- Witness for C5 at the cyclic single-macro table. -/
theorem claim_c5_witness :
    List.lookup "circular".data
        (extractUsedWith (dedupFirst (discoveredRefs ["command ${circular}".data]))
          [("circular".data, "${circular}".data)])
      = some ("${circular}".data)
    ∧ "circular".data ∈ extractWarnings
        (dedupFirst (discoveredRefs ["command ${circular}".data]))
        [("circular".data, "${circular}".data)] := by
  apply claim_c5.1 ["command ${circular}".data]
    [("circular".data, "${circular}".data)]
    (dedupFirst (discoveredRefs ["command ${circular}".data]))
    "circular".data "${circular}".data
  · exact List.Perm.refl _
  · rfl
  · simp +decide [discoveredRefs, dedupFirst, dedupFirstAux, findMacros, lbrace, rbrace,
      String.data]
  · simp +decide [resolveWarns, expandMacroTop, expandMacroFuel, expandNested, findMacros,
      replaceAll, lookupStr, deduplicate_parameters, dedupTokens, scanAux, includedIdx, lastOcc,
      joinSpace, pySplit, pyIsSpace, isFlag, notFlag, macroRef, lbrace, rbrace, incPs,
      String.data, List.lookup]

/-- C6 counterexample: the key order of the extractor's result follows the
Python set's iteration order, which is unspecified; under the legal iteration
order `["aaa", "bbb"]` of the set discovered from `"${bbb} ${aaa}"` the
result keys are `["aaa", "bbb"]`, not the first-discovery order
`["bbb", "aaa"]`. -/
theorem claim_c6_counterexample :
    IsSetOrder c6order c6commands
    ∧ dedupFirst (discoveredRefs c6commands) = ["bbb".data, "aaa".data]
    ∧ (extractUsedWith c6order c6table).map Prod.fst = ["aaa".data, "bbb".data]
    ∧ ["aaa".data, "bbb".data] ≠ ["bbb".data, "aaa".data] := by
  have hfirst : dedupFirst (discoveredRefs c6commands) = ["bbb".data, "aaa".data] := by
    simp +decide [c6commands, discoveredRefs, dedupFirst, dedupFirstAux, findMacros, lbrace,
      rbrace, String.data]
  refine ⟨?_, hfirst, ?_, by decide⟩
  · unfold IsSetOrder
    rw [hfirst]
    exact List.Perm.swap _ _ _
  · simp +decide [c6order, c6table, extractUsedWith, resolveUsed, expandMacroTop,
      expandMacroFuel, expandNested, findMacros, replaceAll, lookupStr, deduplicate_parameters,
      dedupTokens, scanAux, includedIdx, lastOcc, joinSpace, pySplit, pyIsSpace, isFlag, notFlag,
      macroRef, lbrace, rbrace, incPs, String.data, List.lookup]

/-- C6 amended: every discovered, table-defined name is resolved once and
appears exactly once in the result (duplicate references across commands are
collapsed), but the key order follows the set's iteration order — any
duplicate-free enumeration of the discovered names — not necessarily the
insertion order of first discovery. -/
theorem claim_c6_amended (commands : List Str) (table : List (Str × Str)) (order : List Str)
    (h : IsSetOrder order commands) :
    ((extractUsedWith order table).map Prod.fst).Nodup
    ∧ ∀ m : Str, m ∈ (extractUsedWith order table).map Prod.fst
        ↔ (m ∈ discoveredRefs commands ∧ (lookupStr table m).isSome = true) := by
  rw [extractUsedWith_keys]
  have hnd : order.Nodup := h.symm.nodup (dedupFirst_nodup _)
  constructor
  · exact hnd.filter _
  · intro m
    rw [List.mem_filter]
    have hmem : m ∈ order ↔ m ∈ discoveredRefs commands := by
      rw [h.mem_iff, dedupFirst_mem]
    rw [hmem]

/-- Witness for C6 amended at the counterexample inputs. -/
theorem claim_c6_amended_witness :
    ((extractUsedWith c6order c6table).map Prod.fst).Nodup
    ∧ ("aaa".data ∈ (extractUsedWith c6order c6table).map Prod.fst
        ↔ ("aaa".data ∈ discoveredRefs c6commands
            ∧ (lookupStr c6table "aaa".data).isSome = true)) := by
  have h : IsSetOrder c6order c6commands := by
    unfold IsSetOrder
    have hfirst : dedupFirst (discoveredRefs c6commands) = ["bbb".data, "aaa".data] := by
      simp +decide [c6commands, discoveredRefs, dedupFirst, dedupFirstAux, findMacros, lbrace,
        rbrace, String.data]
    rw [hfirst]
    exact List.Perm.swap _ _ _
  exact ⟨(claim_c6_amended c6commands c6table c6order h).1,
    (claim_c6_amended c6commands c6table c6order h).2 "aaa".data⟩

/-- C3 counterexample: the document has two distinct group-membership
violations (an undefined member and a doubly-grouped model), but a single
validation run reports only the multiple-groups error — the collected
undefined-member finding is discarded by the immediate raise. -/
theorem claim_c3_counterexample :
    specUndefinedMembers c3doc = [("g1".data, "ghost".data)]
    ∧ groupMembershipCount c3doc "m1".data = 2
    ∧ (validate_yaml_string (YamlRoot.mapping c3doc)).errors
        = [VErr.multiGroup "m1".data] := by
  refine ⟨by decide, by decide, ?_⟩
  decide

/-- C3 amended: each phase-2 check raises at its first violation, so a single
run reports at most one consistency error; only undefined group-member
violations are collected exhaustively — across all groups, combined into one
error — and that full list is reported provided no model id occurs twice
across the groups (and field validation and the alias pass are clean). -/
theorem claim_c3_amended (doc : PyDoc) (am : List (Str × Str))
    (h1 : fieldErrors doc = [])
    (h2 : buildAliasMap doc.models [] = Except.ok am)
    (h3 : (doc.groups.flatMap (fun p => p.2.members)).Nodup)
    (h4 : specUndefinedMembers doc ≠ []) :
    (validate_with_pydantic doc).errors
      = [VErr.undefinedMembers (specUndefinedMembers doc)] := by
  rw [report_of_consistency_error doc _ h1 (consistency_undefined_full doc am h2 h3 h4)]

/-- Witness for C3 amended: both undefined-member violations of `c3wdoc` are
reported together. -/
theorem claim_c3_amended_witness :
    (validate_with_pydantic c3wdoc).errors
      = [VErr.undefinedMembers [("g1".data, "ghostA".data), ("g2".data, "ghostB".data)]] := by
  rw [claim_c3_amended c3wdoc [] (by decide) (by decide) (by decide) (by decide)]
  decide

/-- C4 counterexample: with no macros declared, the nested-literal check is
skipped entirely — the document containing `${${` in `cmd` validates
cleanly. -/
theorem claim_c4_counterexample :
    containsSub ("llama --port ${PORT} $\x7b$\x7by\x7d\x7d".data) nestedLit = true
    ∧ validate_yaml_string (YamlRoot.mapping c4doc)
        = { is_valid := true, errors := [], warnings := [] } := by
  refine ⟨by decide, ?_⟩
  decide

/-- C4 amended: the nested-literal check runs only when the document declares
at least one macro; in that case a model field containing `${${` guarantees
the document is rejected (consistency fails and the report is invalid),
though an earlier violation may be the one reported; and every reported
nested-literal error names a model and field whose value genuinely contains
the literal. -/
theorem claim_c4_amended :
    (∀ (doc : PyDoc) (mid : Str) (m : PyModelConfig) (p : Str × Str),
      doc.macros.isEmpty = false → (mid, m) ∈ doc.models → p ∈ consistencyFields m →
      containsSub p.2 nestedLit = true →
      (∃ e, validate_config_consistency doc = Except.error e)
      ∧ (validate_with_pydantic doc).is_valid = false)
    ∧ (∀ (doc : PyDoc) (mid fn : Str),
      validate_config_consistency doc = Except.error (VErr.nestedMacroLit mid fn) →
      ∃ m, (mid, m) ∈ doc.models ∧ ∃ fv, (fn, fv) ∈ consistencyFields m ∧
        containsSub fv nestedLit = true) := by
  constructor
  · intro doc mid m p hm hmem hp hnest
    obtain ⟨e, he⟩ := consistency_rejects_nested doc mid m p hm hmem hp hnest
    exact ⟨⟨e, he⟩, invalid_of_consistency_error doc e he⟩
  · exact consistency_nested_sound

/-- Witness for C4 amended: with one macro declared, the nested-literal
document is rejected. -/
theorem claim_c4_amended_witness :
    (∃ e, validate_config_consistency c4wdoc = Except.error e)
    ∧ (validate_with_pydantic c4wdoc).is_valid = false := by
  apply claim_c4_amended.1 c4wdoc "m".data
    ({ cmd := "llama --port ${PORT} $\x7b$\x7by\x7d\x7d".data } : PyModelConfig)
    ("cmd".data, "llama --port ${PORT} $\x7b$\x7by\x7d\x7d".data)
  · decide
  · decide
  · decide
  · decide

/-- C9: the validation engine is a total function into reports (every raise
is reified into the report; none escapes), the report is coherent — valid
exactly when no error was recorded — and the two unrecoverable structural
failures (empty/null document, non-mapping root) each produce a report with
exactly one top-level error and no field-level findings. -/
theorem claim_c9 :
    (∀ root : YamlRoot, (validate_yaml_string root).is_valid = true
        ↔ (validate_yaml_string root).errors = [])
    ∧ validate_yaml_string YamlRoot.isNull
        = { is_valid := false, errors := [VErr.topEmpty], warnings := [] }
    ∧ validate_yaml_string YamlRoot.notMapping
        = { is_valid := false, errors := [VErr.topNotMapping], warnings := [] } := by
  refine ⟨validate_yaml_string_coherent, rfl, rfl⟩

/-- Every surviving index is a valid token index, so listing
`sorted(indices_to_include)` coincides with filtering `range(len(tokens))`. -/
theorem includedIdx_bound (ts : List Str) (n : Nat)
    (h : includedIdx (scanAux ts 0).1 (scanAux ts 0).2 n = true) : n < ts.length := by
  rw [scanAux_eq] at h
  simp only [Nat.zero_add] at h
  rw [includedIdx_eq, Bool.or_eq_true] at h
  have hlen : ts.length
      = (ts.takeWhile notFlag).length + (ts.dropWhile notFlag).length := by
    conv_lhs => rw [← List.takeWhile_append_dropWhile notFlag ts]
    rw [List.length_append]
  have hflat : (flatBlocks (toBlocks (ts.dropWhile notFlag))).length
      = (ts.dropWhile notFlag).length := by rw [flatBlocks_toBlocks]
  rcases h with h | h
  · rw [contains_nat_eq, decide_eq_true_iff, List.mem_range'_1] at h
    omega
  · unfold incPs at h
    rcases List.any_eq_true.mp h with ⟨e, he, hp⟩
    cases hlo : lastOcc (blockEntries (toBlocks (ts.dropWhile notFlag))
        (ts.takeWhile notFlag).length) e.1 with
    | none =>
      simp only [hlo] at hp
      exact absurd hp (by decide)
    | some pv =>
      simp only [hlo] at hp
      obtain ⟨m, hm, _, hm2⟩ := lastOcc_mem hlo
      obtain ⟨h1, h2⟩ := blockEntries_ub (toBlocks (ts.dropWhile notFlag))
        (ts.takeWhile notFlag).length m hm
      rw [hm2] at h1 h2
      rw [Bool.or_eq_true] at hp
      rcases hp with hp | hp
      · have hn : n = pv.1 := by simpa using hp
        omega
      · rw [contains_nat_eq, decide_eq_true_iff] at hp
        have := h2 n hp
        omega
